import Mathlib

/-!
# Tinisat: search driver, variable selection, backjumping and verifier

A shallow embedding of `SatSolver.cpp` and of the inline members of
`CnfManager.h`, together with the properties of the specification that concern
them.

Conventions of the embedding.

* Per-variable arrays (`assigned`, `truthVal`, `dLevel`, ...) are total
  functions on `Nat`; the array `activity` is indexed by `var * 2 + pos`
  exactly as the macro `ACTIVITY` does.
* An `int *` that points at a zero-terminated run of literals (an entry of
  `clauses`, `conflictClause`, an antecedent) is represented by the list of
  literals of the run, terminator excluded.  The first literal pool
  `litPools[0]`, which `verifySolution` walks cell by cell, is kept as the raw
  list of its cells, terminators included.
* The decision/implication stack is the list `trail`, most recent literal
  first, so `*(stackTop - 1)` is the head and `stackTop--` drops it.
* `unsigned` counters wrap modulo `2 ^ 32`; variable identifiers and literals
  are plain numbers (they are `int` in the source and range over `[-V, V]`).
* Members used only by `CnfManager.cpp` (watch lists, implication lists, mark
  bits, the Luby generator state, ...) are carried in the uninterpreted
  component `rest`.  The functions defined in `CnfManager.cpp`, and
  `std::sort`, are the fields of an `Engine`.
-/

namespace Tinisat

/-! ## Literals -/

/-- The macro `SIGN(lit)`: `_POSI` (here `true`) for a positive literal,
`_NEGA` (here `false`) otherwise. -/
def SIGN (lit : Int) : Bool := Decidable.decide (lit > 0)

/-- The macro `VAR(lit)`, the absolute value of the literal. -/
def VAR (lit : Int) : Nat := lit.natAbs

/-- The macro `NEG(lit)`. -/
def NEG (lit : Int) : Int := -lit

/-- Conversion of an `unsigned` value to `int` (two's complement). -/
def toInt32 (u : Nat) : Int :=
  if u % 2 ^ 32 < 2 ^ 31 then ((u % 2 ^ 32 : Nat) : Int) else ((u % 2 ^ 32 : Nat) : Int) - 2 ^ 32

/-- Reduction of a mathematical integer to the `unsigned` value it denotes. -/
def toU32 (z : Int) : Nat := (z % 2 ^ 32).toNat

/-! ## Solver state -/

/-- The members of `CnfManager` and `SatSolver` that the embedded functions read
or write.  `rest` stands for all the other members. -/
structure State (κ : Type) where
  /-- variable count -/
  vc : Nat
  /-- suggested phase for decision -/
  phase : Nat → Bool
  /-- variable value is assigned -/
  assigned : Nat → Bool
  /-- assigned truth value -/
  truthVal : Nat → Bool
  /-- decision level where the variable is set -/
  dLevel : Nat → Nat
  /-- antecedent clause if implied, `none` for `NULL` -/
  antecedent : Nat → Option (List Int)
  /-- scores for literals, indexed by `var * 2 + pos` -/
  activity : Nat → Nat
  /-- variables ordered by score -/
  varOrder : Nat → Nat
  /-- variable position in `varOrder` -/
  varPosition : Nat → Nat
  /-- starting point in `varOrder` -/
  nextVar : Nat
  /-- number of live entries of `varOrder` -/
  nVars : Nat
  /-- the cells of `litPools[0]` -/
  litPool0 : List Int
  /-- original clauses only -/
  litPoolSizeOrig : Nat
  /-- array of conflict clauses -/
  clauses : List (List Int)
  /-- starting point to look for an unsatisfied conflict clause -/
  nextClause : Int
  /-- decision/implication stack, most recent literal first -/
  trail : List Int
  /-- assertion level -/
  aLevel : Nat
  /-- decision level -/
  currentDLevel : Nat
  /-- number of decisions -/
  nDecisions : Nat
  /-- number of conflicts -/
  nConflicts : Nat
  /-- number of restarts -/
  nRestarts : Nat
  /-- learned clause most recently stored -/
  conflictClause : List Int
  /-- conflict count at which the next restart fires -/
  nextRestart : Nat
  /-- conflict count at which the next decay fires -/
  nextDecay : Nat
  /-- restart unit -/
  lubyUnit : Nat
  /-- every other member -/
  rest : κ

/-- The functions this development does not have the source of: those defined
in `CnfManager.cpp`, the Luby generator, and `std::sort`. -/
structure Engine (κ : Type) where
  /-- `CnfManager::assertLiteral(lit, ante)`: result and state afterwards -/
  assertLiteral : State κ → Int → Option (List Int) → Bool × State κ
  /-- `luby.next()`: the term produced and the generator state afterwards -/
  lubyNext : κ → Nat × κ
  /-- `std::sort(first, last, comp)` on the elements of the range -/
  sort : (Nat → Nat → Bool) → List Nat → List Nat

variable {κ : Type}

/-- The macro `FREE(lit)`. -/
def FREE (s : State κ) (lit : Int) : Bool := !s.assigned (VAR lit)

/-- The macro `SET(lit)`. -/
def SET (s : State κ) (lit : Int) : Bool :=
  s.assigned (VAR lit) && (s.truthVal (VAR lit) == SIGN lit)

/-- The macro `RESOLVED(lit)`. -/
def RESOLVED (s : State κ) (lit : Int) : Bool :=
  s.assigned (VAR lit) && (s.truthVal (VAR lit) == SIGN (NEG lit))

/-- The macro `ACTIVITY(var, pos)`. -/
def ACTIVITY (s : State κ) (var pos : Nat) : Nat := s.activity (var * 2 + pos)

/-- The macro `SCORE(var)`, an `unsigned` sum. -/
def SCORE (s : State κ) (var : Nat) : Nat := (ACTIVITY s var 0 + ACTIVITY s var 1) % 2 ^ 32

/-! ## `CnfManager.h` -/

/-- Modelled from the spec: `CnfManager::setLiteral(lit, ante)`, whose body is in
`CnfManager.cpp`.  It records the value, the level `currentDLevel` and the
antecedent, pushes the literal on the trail and marks the variable assigned. -/
def setLiteral (s : State κ) (lit : Int) (ante : Option (List Int)) : State κ :=
  { s with
    truthVal := Function.update s.truthVal (VAR lit) (SIGN lit)
    dLevel := Function.update s.dLevel (VAR lit) s.currentDLevel
    antecedent := Function.update s.antecedent (VAR lit) ante
    trail := lit :: s.trail
    assigned := Function.update s.assigned (VAR lit) true }

/-- `CnfManager::assertCL()`. -/
def assertCL (E : Engine κ) (s : State κ) : Bool × State κ :=
  E.assertLiteral s (s.conflictClause.headD 0) (some s.conflictClause.tail)

/-- `CnfManager::decide(lit)`. -/
def decide (E : Engine κ) (s : State κ) (lit : Int) : Bool × State κ :=
  E.assertLiteral
    { s with nDecisions := (s.nDecisions + 1) % 2 ^ 32
             currentDLevel := (s.currentDLevel + 1) % 2 ^ 32 } lit none

/-- One iteration of the loop of `backtrack` for the stack top `lit`, with the
stack below it `below`. -/
def backtrackPop (s : State κ) (lit : Int) (below : List Int) : State κ :=
  let var := VAR lit
  let s1 := if s.dLevel var < s.currentDLevel
    then { s with phase := Function.update s.phase var (s.truthVal var) } else s
  let s2 := { s1 with assigned := Function.update s1.assigned var false }
  let s3 := if s2.varPosition var < s2.nextVar
    then { s2 with nextVar := s2.varPosition var } else s2
  { s3 with trail := below }

/-- The loop of `backtrack`, on the stack `tr` of the state.  Reading below the
bottom of the stack has no defined result: `none`. -/
def backtrackLoop (bLevel : Nat) : List Int → State κ → Option (State κ)
  | [], _ => none
  | lit :: below, s =>
    if s.dLevel (VAR lit) > bLevel then
      backtrackLoop bLevel below (backtrackPop s lit below)
    else some { s with currentDLevel := bLevel }

/-- `CnfManager::backtrack(bLevel)`. -/
def backtrack (s : State κ) (bLevel : Nat) : Option (State κ) :=
  backtrackLoop bLevel s.trail s

/-- The body of the loop of `scoreDecay` for variable `i`. -/
def scoreDecayStep (act : Nat → Nat) (i : Nat) : Nat → Nat :=
  let act1 := Function.update act (i * 2 + 0) (act (i * 2 + 0) / 2)
  Function.update act1 (i * 2 + 1) (act1 (i * 2 + 1) / 2)

/-- `CnfManager::scoreDecay()`. -/
def scoreDecay (s : State κ) : State κ :=
  { s with activity := (List.range' 1 s.vc).foldl scoreDecayStep s.activity }

/-! ## `SatSolver.cpp` -/

/-- The constant `HALFLIFE`. -/
def HALFLIFE : Nat := 128

/-- The constant `_DT`, the phase selection threshold. -/
def _DT : Int := 32

/-- The comparison `compScores(activity)(a, b)`. -/
def compScores (s : State κ) (a b : Nat) : Bool := Decidable.decide (SCORE s a > SCORE s b)

/-- The body of the pure-literal loop of the constructor for variable `i`. -/
def assertPure (E : Engine κ) (s : State κ) (i : Nat) : State κ :=
  if !s.assigned i then
    if ACTIVITY s i 1 = 0 ∧ ACTIVITY s i 0 > 0 then
      (E.assertLiteral s (-(i : Int)) none).2
    else if ACTIVITY s i 0 = 0 ∧ ACTIVITY s i 1 > 0 then
      (E.assertLiteral s (i : Int) none).2
    else s
  else s

/-- The body of the loop of the constructor that fills `varOrder`. -/
def collectVar (s : State κ) (i : Nat) : State κ :=
  if !s.assigned i && Decidable.decide (SCORE s i > 0) then
    { s with
      varOrder := Function.update s.varOrder s.nVars i
      nVars := s.nVars + 1
      phase := Function.update s.phase i (Decidable.decide (ACTIVITY s i 1 > ACTIVITY s i 0)) }
  else s

/-- The call `sort(varOrder, varOrder + nVars, compScores(activity))`. -/
def sortOrder (E : Engine κ) (s : State κ) : State κ :=
  let sorted := E.sort (compScores s) ((List.range s.nVars).map s.varOrder)
  { s with varOrder := fun k => sorted.getD k (s.varOrder k) }

/-- The body of the loop of the constructor that fills `varPosition`. -/
def recordPosition (s : State κ) (i : Nat) : State κ :=
  { s with varPosition := Function.update s.varPosition (s.varOrder i) i }

/-- The last block of the constructor, from `// initialize varOrder` to its
end, on the state `s2` that the pure-literal loop leaves. -/
def initOrder (E : Engine κ) (s2 : State κ) : State κ :=
  let s3 := (List.range' 1 s2.vc).foldl collectVar { s2 with nVars := 0 }
  let s4 := sortOrder E s3
  let s5 := (List.range s4.nVars).foldl recordPosition s4
  { s5 with nextVar := 0, nextClause := (s5.clauses.length : Int) - 1 }

/-- The constructor `SatSolver::SatSolver(cnf)`, applied to the state `s0` that
the base constructor `CnfManager(cnf)` leaves.  The member `vc` is written by
the base constructor only, so the bound of each loop is read once, when the
loop starts. -/
def SatSolver (E : Engine κ) (s0 : State κ) : State κ :=
  let l := E.lubyNext s0.rest
  let s1 := { s0 with rest := l.2, lubyUnit := 512
                      nextRestart := (l.1 * 512) % 2 ^ 32, nextDecay := HALFLIFE }
  if s1.currentDLevel = 0 then s1 else
  initOrder E ((List.range' 1 s1.vc).foldl (assertPure E) s1)

/-- The second traversal of a clause in `selectLiteral`: the running best
variable `x` and its `score`, updated for the literal `p`. -/
def bestStep (s : State κ) (acc : Nat × Int) (p : Int) : Nat × Int :=
  if FREE s p && Decidable.decide (toInt32 (SCORE s (VAR p)) > acc.2) then
    (VAR p, toInt32 (SCORE s (VAR p)))
  else acc

/-- The best variable of a clause: the fold of `bestStep` from `x = 0`,
`score = -1`. -/
def bestVar (s : State κ) (c : List Int) : Nat := (c.foldl (bestStep s) (0, -1)).1

/-- RSAT phase selection for the chosen variable `x`.  The difference `d` is an
`unsigned` subtraction stored in an `int`; `-d` is taken in `int` (for
`d = INT_MIN`, where C++ leaves it undefined, the two's complement value). -/
def rsatPhase (s : State κ) (x : Nat) : Int :=
  let d : Int := toInt32 (toU32 ((ACTIVITY s x 1 : Int) - (ACTIVITY s x 0 : Int)))
  if d > _DT then (x : Int)
  else if toInt32 (toU32 (-d)) > _DT then -(x : Int)
  else if s.phase x then (x : Int) else -(x : Int)

/-- The first loop of `selectLiteral`, for `i` running from
`lastClause + n - 1` down to `lastClause`.  Result: `none` when `clauses[i]` is
read outside the vector; otherwise the variable picked in the first
unsatisfied clause, if there is one, and the state with `nextClause`
updated. -/
def scanClauses (s : State κ) (lastClause : Int) : Nat → Option (Option Nat × State κ)
  | 0 => some (none, s)
  | n + 1 =>
    let i : Int := lastClause + n
    match s.clauses[i.toNat]? with
    | none => none
    | some c =>
      if c.any (SET s) then
        scanClauses { s with nextClause := i } lastClause n
      else some (some (bestVar s c), { s with nextClause := i })

/-- The second loop of `selectLiteral`, for `i` running from `nVars - n` up to
`nVars - 1`: the first index whose variable is not assigned. -/
def scanOrder (s : State κ) : Nat → Option Nat
  | 0 => none
  | n + 1 =>
    let i := s.nVars - (n + 1)
    if !s.assigned (s.varOrder i) then some i else scanOrder s n

/-- The variable `x` that `selectLiteral` has chosen when it reaches one of its
`return` statements inside a loop (`none` when it reaches `return 0`), and the
state at that point. -/
def selectVar (s : State κ) : Option (Option Nat × State κ) :=
  let lastClause : Int := if s.nextClause > 256 then s.nextClause - 256 else 0
  match scanClauses s lastClause (s.nextClause - lastClause + 1).toNat with
  | none => none
  | some (some x, s1) => some (some x, s1)
  | some (none, s1) =>
    match scanOrder s1 (s1.nVars - s1.nextVar) with
    | some i => some (some (s1.varOrder i), { s1 with nextVar := i + 1 })
    | none => some (none, s1)

/-- `SatSolver::selectLiteral()`: the literal returned and the state
afterwards. -/
def selectLiteral (s : State κ) : Option (Int × State κ) :=
  match selectVar s with
  | none => none
  | some (some x, s1) => some (rsatPhase s1 x, s1)
  | some (none, s1) => some (0, s1)

/-- The inner `while(pool[i++]);` of `verifySolution`: the index after the
terminator of the current run. -/
def skipClause (pool : List Int) : Nat → Nat → Option Nat
  | 0, _ => none
  | fuel + 1, i =>
    match pool[i]? with
    | none => none
    | some lit => if lit = 0 then some (i + 1) else skipClause pool fuel (i + 1)

/-- The loop `while((lit = pool[i++]))` of `verifySolution`: the value of
`satisfied` and the index reached. -/
def scanClause (s : State κ) (pool : List Int) : Nat → Nat → Option (Bool × Nat)
  | 0, _ => none
  | fuel + 1, i =>
    match pool[i]? with
    | none => none
    | some lit =>
      if lit = 0 then some (false, i + 1)
      else if SET s lit then (skipClause pool fuel (i + 1)).map (fun j => (true, j))
      else scanClause s pool fuel (i + 1)

/-- The outer loop of `verifySolution`.  A read outside `pool` gives `none`. -/
def verifyLoop (s : State κ) (pool : List Int) : Nat → Nat → Option Bool
  | 0, _ => none
  | fuel + 1, i =>
    if i < s.litPoolSizeOrig then
      match scanClause s pool (pool.length + 1) i with
      | none => none
      | some (false, _) => some false
      | some (true, j) => verifyLoop s pool fuel j
    else some true

/-- `SatSolver::verifySolution()`: the value returned and the state afterwards.
The function has local variables only. -/
def verifySolution (s : State κ) : Option (Bool × State κ) :=
  (verifyLoop s s.litPool0 (s.litPool0.length + 1) 0).map (fun b => (b, s))

/-- How a call of `run` ends: it returns a value, or the process is terminated
with `exit(code)` after printing `out`. -/
inductive Outcome (κ : Type) where
  | ret (b : Bool) (s : State κ)
  | halt (out : String) (code : Nat) (s : State κ)

/-- The statements of `run` after its `for` loop. -/
def runFinish (s : State κ) : Option (Outcome κ) :=
  match verifySolution s with
  | none => none
  | some (true, s1) => some (Outcome.ret true s1)
  | some (false, s1) => some (Outcome.halt "s UNKOWN\n" 0 s1)

/-- The body of the `do ... while(!assertCL())` loop of `run` after its test
of `aLevel`: score decay, rewinding of `nextClause`, then the restart or the
partial restart.  Result: `none` when `backtrack` has none; otherwise whether
the `break` is taken, and the state. -/
def conflictBody (E : Engine κ) (s : State κ) : Option (Bool × State κ) :=
  let s1 := if s.nConflicts = s.nextDecay
    then scoreDecay { s with nextDecay := (s.nextDecay + HALFLIFE) % 2 ^ 32 } else s
  let s2 := { s1 with nextClause := (s1.clauses.length : Int) - 1 }
  if s2.nConflicts = s2.nextRestart then
    let l := E.lubyNext s2.rest
    let s3 := { s2 with nRestarts := (s2.nRestarts + 1) % 2 ^ 32, rest := l.2
                        nextRestart := (s2.nextRestart + l.1 * s2.lubyUnit) % 2 ^ 32 }
    match backtrack s3 1 with
    | none => none
    | some s4 => some (Decidable.decide (s4.currentDLevel ≠ s4.aLevel), s4)
  else
    match backtrack s2 s2.aLevel with
    | none => none
    | some s4 => some (false, s4)

/-- The loops of `run`.  With `inConflict = false` control is at the head of the
`for` loop; with `inConflict = true` it is at the head of the body of the
`do ... while(!assertCL())` loop.  Each iteration of either loop uses one unit
of fuel. -/
def runLoop (E : Engine κ) : Nat → Bool → State κ → Option (Outcome κ)
  | 0, _, _ => none
  | fuel + 1, false, s =>
    match selectLiteral s with
    | none => none
    | some (lit, s1) =>
      if lit = 0 then runFinish s1
      else
        let r := decide E s1 lit
        runLoop E fuel (!r.1) r.2
  | fuel + 1, true, s =>
    if s.aLevel = 0 then some (Outcome.ret false s)
    else
      match conflictBody E s with
      | none => none
      | some (true, s4) => runLoop E fuel false s4
      | some (false, s4) =>
        let r := assertCL E s4
        runLoop E fuel (!r.1) r.2

/-- One iteration of the loops of `run` from the control point `inConflict` (as
in `runLoop`): `none` when a call has no result, the outcome when `run` ends
in this iteration, otherwise the next control point and state. -/
def runStep (E : Engine κ) (inConflict : Bool) (s : State κ) :
    Option (Outcome κ ⊕ (Bool × State κ)) :=
  match inConflict with
  | false =>
    match selectLiteral s with
    | none => none
    | some (lit, s1) =>
      if lit = 0 then (runFinish s1).map Sum.inl
      else
        let r := decide E s1 lit
        some (Sum.inr (!r.1, r.2))
  | true =>
    if s.aLevel = 0 then some (Sum.inl (Outcome.ret false s))
    else
      match conflictBody E s with
      | none => none
      | some (true, s4) => some (Sum.inr (false, s4))
      | some (false, s4) =>
        let r := assertCL E s4
        some (Sum.inr (!r.1, r.2))

/-- The control point and state of `run` after `n` iterations of its loops from
the control point and state `x`, when `run` has not ended before. -/
def runReach (E : Engine κ) : Nat → Bool × State κ → Option (Bool × State κ)
  | 0, x => some x
  | n + 1, x =>
    match runReach E n x with
    | none => none
    | some (c, s) =>
      match runStep E c s with
      | some (Sum.inr y) => some y
      | _ => none

/-- `SatSolver::run()`, with `fuel` bounding the number of loop iterations. -/
def run (E : Engine κ) (fuel : Nat) (s : State κ) : Option (Outcome κ) :=
  if s.currentDLevel = 0 then some (Outcome.ret false s) else runLoop E fuel false s

/-! ## Vocabulary of the properties -/

/-- The cells of a well-formed original segment: the clauses `cls` laid out one
after the other, each followed by its terminator `0`. -/
def segment : List (List Int) → List Int
  | [] => []
  | c :: cs => c ++ 0 :: segment cs

/-- The test `!assigned[i] && SCORE(i) > 0` of the constructor, as a function of
the two arrays it reads. -/
def eligible (asg : Nat → Bool) (act : Nat → Nat) (i : Nat) : Bool :=
  !asg i && Decidable.decide ((act (i * 2 + 0) + act (i * 2 + 1)) % 2 ^ 32 > 0)

/-- The indices `i` at which the first loop of `selectLiteral` reads
`clauses[i]`, in the order of the reads; the recursion is that of
`scanClauses`. -/
def scanTrace (s : State κ) (lastClause : Int) : Nat → List Int
  | 0 => []
  | n + 1 =>
    let i : Int := lastClause + n
    match s.clauses[i.toNat]? with
    | none => [i]
    | some c =>
      if c.any (SET s) then i :: scanTrace { s with nextClause := i } lastClause n
      else [i]

/-- The indices of the learned clauses that one call of `selectLiteral`
examines in its clause-guided scan. -/
def examined (s : State κ) : List Int :=
  let lastClause : Int := if s.nextClause > 256 then s.nextClause - 256 else 0
  scanTrace s lastClause (s.nextClause - lastClause + 1).toNat

/-! ## Concrete engines and states -/

/-- An engine without propagation: `assertLiteral` sets the literal and reports
no conflict, the generator yields `1`, sorting is insertion sort. -/
def plainEngine : Engine Unit where
  assertLiteral := fun s lit ante => (true, setLiteral s lit ante)
  lubyNext := fun r => (1, r)
  sort := fun cmp l => List.insertionSort (fun a b => cmp b a = false) l

/-- The state with every array zeroed, no clause and an empty stack, at
decision level 1. -/
def blank : State Unit where
  vc := 0
  phase := fun _ => false
  assigned := fun _ => false
  truthVal := fun _ => false
  dLevel := fun _ => 0
  antecedent := fun _ => none
  activity := fun _ => 0
  varOrder := fun _ => 0
  varPosition := fun _ => 0
  nextVar := 0
  nVars := 0
  litPool0 := []
  litPoolSizeOrig := 0
  clauses := []
  nextClause := -1
  trail := []
  aLevel := 0
  currentDLevel := 1
  nDecisions := 0
  nConflicts := 0
  nRestarts := 0
  conflictClause := []
  nextRestart := 512
  nextDecay := 128
  lubyUnit := 512
  rest := ()

/-- Three variables, `1` true and `2` false at level 1, `3` free; the original
segment holds `(1 ∨ ¬2)` and `(2 ∨ 3)`, and a learned clause follows it. -/
def verifierDemo : State Unit :=
  { blank with
    vc := 3
    assigned := fun v => v == 1 || v == 2
    truthVal := fun v => v == 1
    dLevel := fun _ => 1
    litPool0 := [1, -2, 0, 2, 3, 0, -1, 3, 0]
    litPoolSizeOrig := 6
    trail := [-2, 1] }

/-- Three variables occurring positively in the one original clause
`(1 ∨ 2 ∨ 3)`, none assigned, all three in `varOrder`; the state a search
starts from when nothing was asserted before it. -/
def searchDemo : State Unit :=
  { blank with
    vc := 3
    activity := fun k => if k = 3 ∨ k = 5 ∨ k = 7 then 1 else 0
    phase := fun _ => true
    varOrder := fun i => i + 1
    varPosition := fun v => v - 1
    nVars := 3
    litPool0 := [1, 2, 3, 0]
    litPoolSizeOrig := 4 }

/-- A state left by a failed level-0 propagation: decision level 0. -/
def failedBase : State Unit :=
  { blank with vc := 1, currentDLevel := 0, litPool0 := [], trail := [1] }

/-- A stack of four literals set at levels 1, 2, 3, 3 (oldest first: `1`, `-2`,
`3`, `-4`), at decision level 3. -/
def trailDemo : State Unit :=
  { blank with
    vc := 4
    assigned := fun v => v == 1 || v == 2 || v == 3 || v == 4
    truthVal := fun v => v == 1 || v == 3
    dLevel := fun v => if v = 1 then 1 else if v = 2 then 2 else 3
    currentDLevel := 3
    trail := [-4, 3, -2, 1] }

/-- One free variable in `varOrder` whose positive counter holds 3000000000 and
whose negative counter holds 0. -/
def wrapDemo : State Unit :=
  { blank with
    vc := 1
    activity := fun k => if k = 3 then 3000000000 else 0
    phase := fun _ => true
    varOrder := fun _ => 1
    nVars := 1 }

/-- A complete assignment of three variables at level 2, with two learned
clauses, one of them with every literal false, and the clause cursor on top. -/
def fullDemo : State Unit :=
  { blank with
    vc := 3
    assigned := fun v => v == 1 || v == 2 || v == 3
    truthVal := fun v => v == 1
    dLevel := fun _ => 2
    activity := fun k => if k = 3 then 2 else 1
    varOrder := fun i => i + 1
    varPosition := fun v => v - 1
    nVars := 3
    nextVar := 1
    clauses := [[1, 2], [2, 3, -1]]
    nextClause := 1
    currentDLevel := 2
    trail := [-3, -2, 1] }

/-- Modelled from the spec: the state the base constructor `CnfManager(cnf)`
leaves for the CNF over four variables with the clauses `(1 ∨ 2 ∨ 3)`,
`(¬1 ∨ ¬2 ∨ 3)`, `(1 ∨ ¬2 ∨ ¬3)`, `(¬3 ∨ 4 ∨ 1)`, `(¬4 ∨ ¬1 ∨ 2)`: the clauses
in the pool, the counters seeded with the occurrences of each literal, nothing
asserted, decision level 1. -/
def mixedBase : State Unit :=
  { blank with
    vc := 4
    activity := fun k =>
      if k = 3 then 3 else if k = 2 ∨ k = 4 ∨ k = 5 ∨ k = 6 ∨ k = 7 then 2
      else if k = 8 ∨ k = 9 then 1 else 0
    litPool0 := [1, 2, 3, 0, -1, -2, 3, 0, 1, -2, -3, 0, -3, 4, 1, 0, -4, -1, 2, 0]
    litPoolSizeOrig := 20 }

/-- Modelled from the spec: the state the base constructor `CnfManager(cnf)`
leaves for the CNF over four variables with the one clause `(1 ∨ 2 ∨ ¬3)`, in
which variable 4 does not occur. -/
def pureBase : State Unit :=
  { blank with
    vc := 4
    activity := fun k => if k = 3 ∨ k = 5 ∨ k = 6 then 1 else 0
    litPool0 := [1, 2, -3, 0]
    litPoolSizeOrig := 4 }

/-- Three hundred learned clauses `(1)`, all satisfied by the assignment of
variable 1, with the clause cursor on the top one. -/
def scanDemo : State Unit :=
  { blank with
    vc := 1
    assigned := fun v => v == 1
    truthVal := fun v => v == 1
    dLevel := fun _ => 1
    clauses := List.replicate 300 [1]
    nextClause := 299
    trail := [1] }

/-- One learned clause `(1 ∨ 2)` with both variables free and ordered; the
positive counter of variable 1 holds `2^31`, that of variable 2 holds 1. -/
def bigScoreDemo : State Unit :=
  { blank with
    vc := 2
    activity := fun k => if k = 3 then 2147483648 else if k = 5 then 1 else 0
    varOrder := fun i => i + 1
    varPosition := fun v => v - 1
    nVars := 2
    clauses := [[1, 2]]
    nextClause := 0 }

/-- Three learned clauses over three ordered variables, variable 1 assigned
false at level 1 and the others free: `(¬1 ∨ 3)` on top with the cursor on it,
then `(1 ∨ ¬2 ∨ 3)`, then `(¬1 ∨ 2)`. -/
def guidedDemo : State Unit :=
  { blank with
    vc := 3
    assigned := fun v => v == 1
    truthVal := fun _ => false
    dLevel := fun _ => 1
    activity := fun k => if k = 4 then 2 else if k = 5 ∨ k = 6 then 1 else if k = 7 then 2 else 0
    phase := fun v => v == 3
    varOrder := fun i => i + 1
    varPosition := fun v => v - 1
    nVars := 3
    nextVar := 1
    clauses := [[-1, 2], [1, -2, 3], [-1, 3]]
    nextClause := 2
    trail := [-1] }

/-- Two learned clauses `(¬1 ∨ 2)` and `(¬1 ∨ 3)`, both satisfied by variable 1
being false; variables 2 and 3 free; the order is `1, 2, 3` with the cursor at
its start. -/
def orderDemo : State Unit :=
  { blank with
    vc := 3
    assigned := fun v => v == 1
    truthVal := fun _ => false
    dLevel := fun _ => 1
    activity := fun k => if k = 2 then 2 else if k = 5 ∨ k = 7 then 1 else 0
    phase := fun v => v == 2 || v == 3
    varOrder := fun i => i + 1
    varPosition := fun v => v - 1
    nVars := 3
    clauses := [[-1, 2], [-1, 3]]
    nextClause := 1
    trail := [-1] }

/-- One learned clause `(1)` whose variable is free and is the only entry of
the order; its positive counter holds `2^31`. -/
def soloDemo : State Unit :=
  { blank with
    vc := 1
    activity := fun k => if k = 3 then 2147483648 else 0
    varOrder := fun i => i + 1
    varPosition := fun v => v - 1
    nVars := 1
    clauses := [[1]]
    nextClause := 0 }

/-- Variable 1 assigned false, variable 2 free, both ordered with the cursor
past variable 1; the learned clause `(1)` under the clause cursor has its only
literal false. -/
def stuckDemo : State Unit :=
  { blank with
    vc := 2
    assigned := fun v => v == 1
    truthVal := fun _ => false
    dLevel := fun _ => 1
    activity := fun k => if k = 3 ∨ k = 5 then 1 else 0
    varOrder := fun i => i + 1
    varPosition := fun v => v - 1
    nVars := 2
    nextVar := 1
    clauses := [[1]]
    nextClause := 0
    trail := [-1] }

/-- Both variables assigned, `1` false and `2` true, the learned clause
`(¬1 ∨ 2)` satisfied, the order `1, 2` with its cursor at the start. -/
def completeDemo : State Unit :=
  { blank with
    vc := 2
    assigned := fun v => v == 1 || v == 2
    truthVal := fun v => v == 2
    dLevel := fun _ => 1
    activity := fun k => if k = 2 ∨ k = 5 then 1 else 0
    varOrder := fun i => i + 1
    varPosition := fun v => v - 1
    nVars := 2
    clauses := [[-1, 2]]
    nextClause := 0
    trail := [2, -1] }

/-- Two variables of equal score 14, with counters `(6, 8)` and `(7, 7)`. -/
def decayDemo : State Unit :=
  { blank with
    vc := 2
    activity := fun k => if k = 2 then 6 else if k = 3 then 8
      else if k = 4 ∨ k = 5 then 7 else 0 }

/-- Two variables, with counters `(1, 1)` and `(2^31, 2^31)`. -/
def wrapScoreDemo : State Unit :=
  { blank with
    vc := 2
    activity := fun k => if k = 2 ∨ k = 3 then 1
      else if k = 4 ∨ k = 5 then 2147483648 else 0 }

/-! ## Properties of the verifier -/

theorem getElem?_at_length (pre post : List Int) (l : Int) :
    (pre ++ l :: post)[pre.length]? = some l := by
  rw [List.getElem?_append_right (le_refl _)]
  simp

theorem skipClause_run (c : List Int) (hc : ∀ l ∈ c, l ≠ 0) :
    ∀ (pre post : List Int) (fuel : Nat), c.length + 1 ≤ fuel →
      skipClause (pre ++ (c ++ 0 :: post)) fuel pre.length
        = some (pre.length + c.length + 1) := by
  induction c with
  | nil =>
    intro pre post fuel hf
    obtain ⟨f, rfl⟩ : ∃ f, fuel = f + 1 := ⟨fuel - 1, by simp at hf; omega⟩
    simp only [skipClause, List.nil_append, getElem?_at_length, if_true, List.length_nil,
      Nat.add_zero]
  | cons l c ih =>
    intro pre post fuel hf
    obtain ⟨f, rfl⟩ : ∃ f, fuel = f + 1 := ⟨fuel - 1, by simp at hf; omega⟩
    have hl : l ≠ 0 := hc l (by simp)
    have h := ih (fun x hx => hc x (by simp [hx])) (pre ++ [l]) post f
      (by simp at hf ⊢; omega)
    simp only [List.append_assoc, List.singleton_append, List.length_append,
      List.length_singleton] at h
    simp only [skipClause, List.cons_append, getElem?_at_length, hl, if_false, h,
      List.length_cons]
    congr 1; omega

theorem scanClause_run (s : State κ) (c : List Int) (hc : ∀ l ∈ c, l ≠ 0) :
    ∀ (pre post : List Int) (fuel : Nat), c.length + 1 ≤ fuel →
      scanClause s (pre ++ (c ++ 0 :: post)) fuel pre.length
        = some (c.any (SET s), pre.length + c.length + 1) := by
  induction c with
  | nil =>
    intro pre post fuel hf
    obtain ⟨f, rfl⟩ : ∃ f, fuel = f + 1 := ⟨fuel - 1, by simp at hf; omega⟩
    simp only [scanClause, List.nil_append, getElem?_at_length, if_true, List.length_nil,
      Nat.add_zero, List.any_nil]
  | cons l c ih =>
    intro pre post fuel hf
    obtain ⟨f, rfl⟩ : ∃ f, fuel = f + 1 := ⟨fuel - 1, by simp at hf; omega⟩
    have hl : l ≠ 0 := hc l (by simp)
    have hc2 : ∀ x ∈ c, x ≠ 0 := fun x hx => hc x (by simp [hx])
    have hf2 : c.length + 1 ≤ f := by simp at hf ⊢; omega
    have h := ih hc2 (pre ++ [l]) post f hf2
    have h2 := skipClause_run c hc2 (pre ++ [l]) post f hf2
    simp only [List.append_assoc, List.singleton_append, List.length_append,
      List.length_singleton] at h h2
    simp only [scanClause, List.cons_append, getElem?_at_length, hl, if_false,
      List.length_cons, List.any_cons]
    by_cases hset : SET s l = true
    · simp only [hset, if_true, h2, Option.map_some', Bool.true_or]
      congr 2; omega
    · simp only [hset, h, Bool.false_or]
      simp only [Bool.not_eq_true] at hset
      simp only [hset, Bool.false_eq_true, if_false, Bool.false_or]
      congr 2; omega

theorem verifyLoop_run (s : State κ) (cls : List (List Int))
    (hnz : ∀ c ∈ cls, ∀ l ∈ c, l ≠ 0) :
    ∀ (pre rest : List Int) (fuel : Nat), cls.length + 1 ≤ fuel →
      s.litPoolSizeOrig = pre.length + (segment cls).length →
      verifyLoop s (pre ++ (segment cls ++ rest)) fuel pre.length
        = some (cls.all (fun c => c.any (SET s))) := by
  induction cls with
  | nil =>
    intro pre rest fuel hf hsz
    obtain ⟨f, rfl⟩ : ∃ f, fuel = f + 1 := ⟨fuel - 1, by simp at hf; omega⟩
    simp only [segment, List.length_nil, Nat.add_zero] at hsz
    simp [verifyLoop, hsz]
  | cons c cs ih =>
    intro pre rest fuel hf hsz
    obtain ⟨f, rfl⟩ : ∃ f, fuel = f + 1 := ⟨fuel - 1, by simp at hf; omega⟩
    have hc : ∀ l ∈ c, l ≠ 0 := hnz c (by simp)
    have hcs : ∀ d ∈ cs, ∀ l ∈ d, l ≠ 0 := fun d hd => hnz d (by simp [hd])
    have hlt : pre.length < s.litPoolSizeOrig := by
      rw [hsz]; simp [segment]
    have hpool : pre ++ (segment (c :: cs) ++ rest)
        = pre ++ (c ++ 0 :: (segment cs ++ rest)) := by
      simp [segment]
    have hscan := scanClause_run s c hc pre (segment cs ++ rest)
      ((pre ++ (c ++ 0 :: (segment cs ++ rest))).length + 1)
      (by simp; omega)
    rw [hpool]
    simp only [verifyLoop, hlt, if_true, hscan, List.all_cons]
    cases hany : c.any (SET s) with
    | false => simp
    | true =>
      have h := ih hcs (pre ++ (c ++ [0])) rest f (by simp at hf ⊢; omega)
        (by rw [hsz]; simp [segment]; omega)
      have e1 : pre ++ (c ++ [0]) ++ (segment cs ++ rest)
          = pre ++ (c ++ 0 :: (segment cs ++ rest)) := by simp
      have e2 : (pre ++ (c ++ [0])).length = pre.length + c.length + 1 := by
        simp; omega
      rw [e1, e2] at h
      simp [h]

theorem all_any_iff (s : State κ) (cls : List (List Int)) :
    cls.all (fun c => c.any (SET s)) = true ↔ ∀ c ∈ cls, ∃ l ∈ c, SET s l = true := by
  simp [List.all_eq_true, List.any_eq_true]

theorem segment_length_ge (cls : List (List Int)) : cls.length ≤ (segment cls).length := by
  induction cls with
  | nil => simp [segment]
  | cons c cs ih => simp [segment]; omega

/-- The verifier on a state whose first pool starts with a well-formed original
segment: it returns, and its value is the conjunction over the clauses. -/
theorem verifySolution_segment (s : State κ) (cls : List (List Int)) (rest : List Int)
    (hnz : ∀ c ∈ cls, ∀ l ∈ c, l ≠ 0)
    (hpool : s.litPool0 = segment cls ++ rest)
    (hsz : s.litPoolSizeOrig = (segment cls).length) :
    verifySolution s = some (cls.all (fun c => c.any (SET s)), s) := by
  have h := verifyLoop_run s cls hnz [] rest (s.litPool0.length + 1)
    (by rw [hpool]; have := segment_length_ge cls; simp; omega) (by simp [hsz])
  simp only [List.nil_append, List.length_nil] at h
  rw [← hpool] at h
  simp [verifySolution, h]

/-- Claim C2.  On a state whose first pool begins with a well-formed original
segment (the clauses `cls`, each zero-terminated, of total length
`litPoolSizeOrig`), `verifySolution` returns a value `b` and leaves the state as
it was; `b` is true exactly when every clause of the segment has a literal that
is set; `b` is true on the empty segment and false when some clause (an empty
one included) has no set literal; and the same value is returned when the pool
is cut off at `litPoolSizeOrig`, where a read at any index from
`litPoolSizeOrig` on would have no result. -/
theorem verifySolution_spec (s : State κ) (cls : List (List Int)) (rest : List Int)
    (hnz : ∀ c ∈ cls, ∀ l ∈ c, l ≠ 0)
    (hpool : s.litPool0 = segment cls ++ rest)
    (hsz : s.litPoolSizeOrig = (segment cls).length) :
    ∃ b : Bool,
      verifySolution s = some (b, s) ∧
      (b = true ↔ ∀ c ∈ cls, ∃ l ∈ c, SET s l = true) ∧
      (cls = [] → b = true) ∧
      ((∃ c ∈ cls, ∀ l ∈ c, SET s l = false) → b = false) ∧
      (verifySolution { s with litPool0 := s.litPool0.take s.litPoolSizeOrig }).map Prod.fst
        = some b := by
  refine ⟨cls.all (fun c => c.any (SET s)), verifySolution_segment s cls rest hnz hpool hsz,
    all_any_iff s cls, ?_, ?_, ?_⟩
  · rintro rfl; rfl
  · rintro ⟨c, hc, hall⟩
    cases hb : cls.all (fun c => c.any (SET s)) with
    | false => rfl
    | true =>
      obtain ⟨l, hl, hset⟩ := (all_any_iff s cls).1 hb c hc
      rw [hall l hl] at hset
      exact absurd hset (by simp)
  · have h := verifySolution_segment
      { s with litPool0 := s.litPool0.take s.litPoolSizeOrig } cls [] hnz
      (by simp [hpool, hsz]) hsz
    rw [h]; rfl

/-- A model that satisfies the first clause of the segment and not the second:
the verifier returns false. -/
theorem verifySolution_spec_witness :
    (∀ c ∈ [[1, -2], [2, 3]], ∀ l ∈ c, l ≠ (0 : Int)) ∧
    verifierDemo.litPool0 = segment [[1, -2], [2, 3]] ++ [-1, 3, 0] ∧
    verifierDemo.litPoolSizeOrig = (segment [[1, -2], [2, 3]]).length ∧
    ∃ b : Bool,
      verifySolution verifierDemo = some (b, verifierDemo) ∧
      (b = true ↔ ∀ c ∈ [[1, -2], [2, 3]], ∃ l ∈ c, SET verifierDemo l = true) ∧
      (([[1, -2], [2, 3]] : List (List Int)) = [] → b = true) ∧
      ((∃ c ∈ [[1, -2], [2, 3]], ∀ l ∈ c, SET verifierDemo l = false) → b = false) ∧
      (verifySolution
          { verifierDemo with
            litPool0 := verifierDemo.litPool0.take verifierDemo.litPoolSizeOrig }).map Prod.fst
        = some b :=
  ⟨by decide, rfl, rfl,
    verifySolution_spec verifierDemo [[1, -2], [2, 3]] [-1, 3, 0] (by decide) rfl rfl⟩

/-! ## Properties of `run` -/

theorem runFinish_true (s s' : State κ) (h : runFinish s = some (Outcome.ret true s')) :
    s' = s ∧ verifySolution s = some (true, s) := by
  unfold runFinish at h
  cases hv : verifySolution s with
  | none => simp [hv] at h
  | some r =>
    obtain ⟨b, t⟩ := r
    have ht : t = s := by
      unfold verifySolution at hv
      cases hl : verifyLoop s s.litPool0 (s.litPool0.length + 1) 0 with
      | none => simp [hl] at hv
      | some b0 => simp [hl] at hv; exact hv.2.symm
    subst ht
    cases b with
    | false => simp [hv] at h
    | true => simp [hv] at h; exact ⟨h.symm, rfl⟩

theorem runLoop_true (E : Engine κ) (s' : State κ) :
    ∀ (fuel : Nat) (c : Bool) (s : State κ),
      runLoop E fuel c s = some (Outcome.ret true s') →
      verifySolution s' = some (true, s') := by
  intro fuel
  induction fuel with
  | zero => intro c s h; simp [runLoop] at h
  | succ f ih =>
    intro c s h
    cases c with
    | false =>
      simp only [runLoop] at h
      cases hsel : selectLiteral s with
      | none => simp [hsel] at h
      | some r =>
        obtain ⟨lit, s1⟩ := r
        simp only [hsel] at h
        by_cases hl : lit = 0
        · simp only [hl, if_true] at h
          obtain ⟨e, hv⟩ := runFinish_true s1 s' h
          rw [e]; exact hv
        · simp only [hl, if_false] at h
          exact ih _ _ h
    | true =>
      simp only [runLoop] at h
      by_cases ha : s.aLevel = 0
      · simp [ha] at h
      · simp only [ha, if_false] at h
        cases hb : conflictBody E s with
        | none => simp [hb] at h
        | some r =>
          obtain ⟨brk, s4⟩ := r
          cases brk with
          | true => simp only [hb] at h; exact ih _ _ h
          | false => simp only [hb] at h; exact ih _ _ h

/-- Claim C1.  When `run` returns true, the verifier accepts the state it
returns in; hence, when the first pool of that state begins with a well-formed
original segment of length `litPoolSizeOrig`, each clause of the segment has a
literal whose variable is assigned with the polarity of the literal. -/
theorem run_true_verified (E : Engine κ) (fuel : Nat) (s s' : State κ)
    (h : run E fuel s = some (Outcome.ret true s')) :
    verifySolution s' = some (true, s') ∧
    ∀ (cls : List (List Int)) (rest : List Int),
      (∀ c ∈ cls, ∀ l ∈ c, l ≠ 0) →
      s'.litPool0 = segment cls ++ rest →
      s'.litPoolSizeOrig = (segment cls).length →
      ∀ c ∈ cls, ∃ l ∈ c,
        s'.assigned (VAR l) = true ∧ s'.truthVal (VAR l) = SIGN l := by
  have hv : verifySolution s' = some (true, s') := by
    unfold run at h
    split at h
    · simp at h
    · exact runLoop_true E s' fuel false s h
  refine ⟨hv, ?_⟩
  intro cls rest hnz hpool hsz c hc
  have h2 := verifySolution_segment s' cls rest hnz hpool hsz
  rw [hv] at h2
  have h3 : cls.all (fun c => c.any (SET s')) = true := by
    simpa using (congrArg (fun o => o.map Prod.fst) h2).symm
  obtain ⟨l, hl, hset⟩ := (all_any_iff s' cls).1 h3 c hc
  refine ⟨l, hl, ?_⟩
  simpa [SET] using hset

/-- A search of three decisions that ends in a model the verifier accepts. -/
theorem run_true_verified_witness :
    ∃ s' : State Unit,
      run plainEngine 4 searchDemo = some (Outcome.ret true s') ∧
      (verifySolution s' = some (true, s') ∧
        ∀ (cls : List (List Int)) (rest : List Int),
          (∀ c ∈ cls, ∀ l ∈ c, l ≠ 0) →
          s'.litPool0 = segment cls ++ rest →
          s'.litPoolSizeOrig = (segment cls).length →
          ∀ c ∈ cls, ∃ l ∈ c,
            s'.assigned (VAR l) = true ∧ s'.truthVal (VAR l) = SIGN l) :=
  ⟨_, rfl, run_true_verified plainEngine 4 searchDemo _ rfl⟩

/-- Claim C3, as stated, fails: in a state where `selectLiteral` returns 0 and
the verifier returns false, `run` ends the process with exit code 0, so it is
not the case that it ends it with a nonzero code. -/
theorem run_unverified_exit_code_counterexample :
    (selectLiteral verifierDemo).map Prod.fst = some 0 ∧
    (verifySolution verifierDemo).map Prod.fst = some false ∧
    (∃ out s', run plainEngine 1 verifierDemo = some (Outcome.halt out 0 s')) ∧
    ¬ ∃ out code s',
        run plainEngine 1 verifierDemo = some (Outcome.halt out code s') ∧ code ≠ 0 := by
  refine ⟨by decide, by decide, ⟨_, _, rfl⟩, ?_⟩
  rintro ⟨out, code, s', h, hne⟩
  have h0 : run plainEngine 1 verifierDemo
      = some (Outcome.halt "s UNKOWN\n" 0 verifierDemo) := rfl
  rw [h0] at h
  injection h with h
  injection h with _ hc _
  exact hne hc.symm

/-- Claim C3, amended.  When `selectLiteral` returns 0 at the head of the loop of
`run` and the verifier then returns false, `run` does not return: it prints a
status line and ends the process with `exit(0)`, exit code 0. -/
theorem run_unverified_halts (E : Engine κ) (fuel : Nat) (s s1 : State κ)
    (hsel : selectLiteral s = some (0, s1))
    (hver : verifySolution s1 = some (false, s1)) :
    (∃ out, runLoop E (fuel + 1) false s = some (Outcome.halt out 0 s1)) ∧
    (s.currentDLevel ≠ 0 →
      ∃ out, run E (fuel + 1) s = some (Outcome.halt out 0 s1)) ∧
    ∀ s', run E (fuel + 1) s ≠ some (Outcome.ret true s') := by
  have h1 : runLoop E (fuel + 1) false s = some (Outcome.halt "s UNKOWN\n" 0 s1) := by
    simp [runLoop, hsel, runFinish, hver]
  refine ⟨⟨_, h1⟩, ?_, ?_⟩
  · intro hl
    exact ⟨"s UNKOWN\n", by simp [run, hl, h1]⟩
  · intro s' h
    by_cases hl : s.currentDLevel = 0
    · simp [run, hl] at h
    · simp [run, hl, h1] at h

/-- The verifier rejects the model of `verifierDemo`, and `run` ends the process
with code 0. -/
theorem run_unverified_halts_witness :
    selectLiteral verifierDemo = some (0, verifierDemo) ∧
    verifySolution verifierDemo = some (false, verifierDemo) ∧
    ((∃ out, runLoop plainEngine (0 + 1) false verifierDemo
        = some (Outcome.halt out 0 verifierDemo)) ∧
      (verifierDemo.currentDLevel ≠ 0 →
        ∃ out, run plainEngine (0 + 1) verifierDemo
          = some (Outcome.halt out 0 verifierDemo)) ∧
      ∀ s', run plainEngine (0 + 1) verifierDemo ≠ some (Outcome.ret true s')) :=
  ⟨rfl, rfl, run_unverified_halts plainEngine 0 verifierDemo verifierDemo rfl rfl⟩

/-- Claim C5.  At decision level 0 `run` returns false at once, whatever the
fuel, in the very state it was called in: no literal is selected, no counter
moves, the verifier is not called, assignment and trail are as before.  The
constructor leaves level 0 as it finds it, so this is the case whenever the
base constructor ended at level 0. -/
theorem run_level_zero (E : Engine κ) (fuel : Nat) (s : State κ)
    (h : s.currentDLevel = 0) :
    run E fuel s = some (Outcome.ret false s) ∧
    (SatSolver E s).currentDLevel = 0 ∧
    run E fuel (SatSolver E s) = some (Outcome.ret false (SatSolver E s)) := by
  have h2 : (SatSolver E s).currentDLevel = 0 := by
    simp [SatSolver, h]
  exact ⟨by simp [run, h], h2, by simp [run, h2]⟩

/-- A solver whose level-0 propagation failed. -/
theorem run_level_zero_witness :
    failedBase.currentDLevel = 0 ∧
    run plainEngine 0 failedBase = some (Outcome.ret false failedBase) ∧
    (SatSolver plainEngine failedBase).currentDLevel = 0 ∧
    run plainEngine 0 (SatSolver plainEngine failedBase)
      = some (Outcome.ret false (SatSolver plainEngine failedBase)) :=
  ⟨rfl, run_level_zero plainEngine 0 failedBase rfl⟩

/-! ## Properties of `backtrack` -/

theorem backtrackPop_frame (s : State κ) (lit : Int) (below : List Int) :
    (backtrackPop s lit below).trail = below ∧
    (backtrackPop s lit below).assigned = Function.update s.assigned (VAR lit) false ∧
    (backtrackPop s lit below).truthVal = s.truthVal ∧
    (backtrackPop s lit below).dLevel = s.dLevel ∧
    (backtrackPop s lit below).antecedent = s.antecedent := by
  unfold backtrackPop
  by_cases h1 : s.dLevel (VAR lit) < s.currentDLevel <;>
    by_cases h2 : s.varPosition (VAR lit) < s.nextVar <;>
    simp [h1, h2]

theorem backtrackLoop_spec (L : Nat) (lev : Nat → Nat) :
    ∀ (tr : List Int) (s : State κ), s.dLevel = lev → s.trail = tr →
      (∃ l ∈ tr, lev (VAR l) ≤ L) →
      ∃ s', backtrackLoop L tr s = some s' ∧
        s'.trail = tr.dropWhile (fun l => Decidable.decide (lev (VAR l) > L)) ∧
        (∀ v, s'.assigned v =
          if (tr.takeWhile (fun l => Decidable.decide (lev (VAR l) > L))).any
              (fun l => VAR l == v)
          then false else s.assigned v) ∧
        s'.truthVal = s.truthVal ∧ s'.dLevel = s.dLevel ∧
        s'.antecedent = s.antecedent ∧ s'.currentDLevel = L := by
  intro tr
  induction tr with
  | nil => intro s _ _ h; simp at h
  | cons lit below ih =>
    intro s hlev htr hex
    by_cases hp : lev (VAR lit) > L
    · have hex2 : ∃ l ∈ below, lev (VAR l) ≤ L := by
        obtain ⟨l, hl, hle⟩ := hex
        rcases List.mem_cons.1 hl with rfl | hl
        · omega
        · exact ⟨l, hl, hle⟩
      obtain ⟨hf1, hf2, hf3, hf4, hf5⟩ := backtrackPop_frame s lit below
      obtain ⟨s', hrun, htr', hasg, htv, hdl, hant, hcur⟩ :=
        ih (backtrackPop s lit below) (by rw [hf4, hlev]) hf1 hex2
      refine ⟨s', ?_, ?_, ?_, by rw [htv, hf3], by rw [hdl, hf4], by rw [hant, hf5], hcur⟩
      · simp only [backtrackLoop, hlev, hp, if_true, hrun]
      · simp only [List.dropWhile_cons, hp, decide_True, if_true, htr']
      · intro v
        rw [hasg v, hf2]
        simp only [List.takeWhile_cons, hp, decide_True, if_true, List.any_cons]
        by_cases hv : VAR lit = v
        · subst hv; simp
        · have hv2 : (VAR lit == v) = false := by simpa using hv
          simp only [hv2, Bool.false_or]
          rw [Function.update_noteq (Ne.symm hv)]
    · refine ⟨{ s with currentDLevel := L }, ?_, ?_, ?_, rfl, rfl, rfl, rfl⟩
      · simp only [backtrackLoop, hlev, hp, if_false]
      · simp only [List.dropWhile_cons, hp, decide_False]
        simpa using htr
      · intro v
        simp [List.takeWhile_cons, hp]

/-- Claim C6.  When some entry of the trail has level at most `L`,
`backtrack(L)` returns; the old trail is the popped literals `popped` (top
first) followed by the new trail, every popped literal has level above `L` and
the new top has level at most `L`, so `popped` is the maximal top run above `L`;
every popped variable is unassigned afterwards, the assigned flag of every other
variable and the truth value, level and antecedent of every variable are as
before, and `currentDLevel` is `L`.  With no trail entry above `L` the state
changes in `currentDLevel` only. -/
theorem backtrack_spec (s : State κ) (L : Nat)
    (h : ∃ l ∈ s.trail, s.dLevel (VAR l) ≤ L) :
    ∃ (s' : State κ) (popped : List Int),
      backtrack s L = some s' ∧
      s.trail = popped ++ s'.trail ∧
      (∀ l ∈ popped, s.dLevel (VAR l) > L) ∧
      (∃ l below, s'.trail = l :: below ∧ s.dLevel (VAR l) ≤ L) ∧
      (∀ l ∈ popped, s'.assigned (VAR l) = false) ∧
      (∀ v, (∀ l ∈ popped, VAR l ≠ v) → s'.assigned v = s.assigned v) ∧
      s'.truthVal = s.truthVal ∧ s'.dLevel = s.dLevel ∧
      s'.antecedent = s.antecedent ∧ s'.currentDLevel = L ∧
      ((∀ l ∈ s.trail, s.dLevel (VAR l) ≤ L) →
        popped = [] ∧ s' = { s with currentDLevel := L }) := by
  obtain ⟨s', hrun, htr, hasg, htv, hdl, hant, hcur⟩ :=
    backtrackLoop_spec L s.dLevel s.trail s rfl rfl h
  refine ⟨s', s.trail.takeWhile (fun l => Decidable.decide (s.dLevel (VAR l) > L)),
    hrun, ?_, ?_, ?_, ?_, ?_, htv, hdl, hant, hcur, ?_⟩
  · rw [htr, List.takeWhile_append_dropWhile]
  · intro l hl
    simpa using List.mem_takeWhile_imp hl
  · rw [htr]
    obtain ⟨l, hl, hle⟩ := h
    cases hd : s.trail.dropWhile (fun l => Decidable.decide (s.dLevel (VAR l) > L)) with
    | nil =>
      rw [List.dropWhile_eq_nil_iff] at hd
      have := hd l hl
      simp at this
      omega
    | cons a below =>
      refine ⟨a, below, rfl, ?_⟩
      have hh := List.head_dropWhile_not
        (fun l => Decidable.decide (s.dLevel (VAR l) > L)) s.trail (by rw [hd]; simp)
      simp only [hd, List.head_cons] at hh
      simpa using hh
  · intro l hl
    rw [hasg (VAR l)]
    have : (s.trail.takeWhile (fun l => Decidable.decide (s.dLevel (VAR l) > L))).any
        (fun l' => VAR l' == VAR l) = true := by
      rw [List.any_eq_true]; exact ⟨l, hl, by simp⟩
    simp [this]
  · intro v hv
    rw [hasg v]
    have : (s.trail.takeWhile (fun l => Decidable.decide (s.dLevel (VAR l) > L))).any
        (fun l' => VAR l' == v) = false := by
      rw [List.any_eq_false]
      intro l hl
      simpa using hv l hl
    simp [this]
  · intro hall
    obtain ⟨a, below, htrail⟩ : ∃ a below, s.trail = a :: below := by
      cases htrail : s.trail with
      | nil => rw [htrail] at h; simp at h
      | cons a below => exact ⟨a, below, rfl⟩
    have ha : ¬ s.dLevel (VAR a) > L := by
      have := hall a (by rw [htrail]; simp)
      omega
    have hrun1 : backtrack s L = some s' := hrun
    have hrun2 : backtrack s L = some { s with currentDLevel := L } := by
      simp only [backtrack, htrail, backtrackLoop, ha, if_false]
    rw [hrun1] at hrun2
    refine ⟨?_, Option.some.inj hrun2⟩
    rw [htrail]
    simp [List.takeWhile_cons, ha]

/-- Backjumping from level 3 to level 1 on a stack set at levels 1, 2, 3, 3. -/
theorem backtrack_spec_witness :
    (∃ l ∈ trailDemo.trail, trailDemo.dLevel (VAR l) ≤ 1) ∧
    ∃ (s' : State Unit) (popped : List Int),
      backtrack trailDemo 1 = some s' ∧
      trailDemo.trail = popped ++ s'.trail ∧
      (∀ l ∈ popped, trailDemo.dLevel (VAR l) > 1) ∧
      (∃ l below, s'.trail = l :: below ∧ trailDemo.dLevel (VAR l) ≤ 1) ∧
      (∀ l ∈ popped, s'.assigned (VAR l) = false) ∧
      (∀ v, (∀ l ∈ popped, VAR l ≠ v) → s'.assigned v = trailDemo.assigned v) ∧
      s'.truthVal = trailDemo.truthVal ∧ s'.dLevel = trailDemo.dLevel ∧
      s'.antecedent = trailDemo.antecedent ∧ s'.currentDLevel = 1 ∧
      ((∀ l ∈ trailDemo.trail, trailDemo.dLevel (VAR l) ≤ 1) →
        popped = [] ∧ s' = { trailDemo with currentDLevel := 1 }) :=
  ⟨⟨1, by decide, by decide⟩, backtrack_spec trailDemo 1 ⟨1, by decide, by decide⟩⟩

/-! ## Properties of `selectLiteral` -/

theorem toInt32_toU32 (z : Int) (h1 : -(2 ^ 31) ≤ z) (h2 : z < 2 ^ 31) :
    toInt32 (toU32 z) = z := by
  unfold toInt32 toU32
  have e : ((z % 2 ^ 32).toNat % 2 ^ 32 : Nat) = (z % 2 ^ 32).toNat := by
    apply Nat.mod_eq_of_lt
    omega
  rw [e]
  split_ifs with h <;> omega

theorem rsatPhase_exact (s : State κ) (x : Nat)
    (h1 : -(2 ^ 31) < (ACTIVITY s x 1 : Int) - (ACTIVITY s x 0 : Int))
    (h2 : (ACTIVITY s x 1 : Int) - (ACTIVITY s x 0 : Int) < 2 ^ 31) :
    rsatPhase s x =
      if (ACTIVITY s x 1 : Int) - (ACTIVITY s x 0 : Int) > 32 then (x : Int)
      else if (ACTIVITY s x 1 : Int) - (ACTIVITY s x 0 : Int) < -32 then -(x : Int)
      else if s.phase x then (x : Int) else -(x : Int) := by
  unfold rsatPhase _DT
  simp only []
  rw [toInt32_toU32 _ (by omega) h2, toInt32_toU32 _ (by omega) (by omega)]
  by_cases ha : (ACTIVITY s x 1 : Int) - (ACTIVITY s x 0 : Int) > 32
  · simp only [ha, if_true]
  · by_cases hb : (ACTIVITY s x 1 : Int) - (ACTIVITY s x 0 : Int) < -32
    · have hb2 : -((ACTIVITY s x 1 : Int) - (ACTIVITY s x 0 : Int)) > 32 := by omega
      simp only [ha, if_false, hb, hb2, if_true]
    · have hb2 : ¬ -((ACTIVITY s x 1 : Int) - (ACTIVITY s x 0 : Int)) > 32 := by omega
      simp only [ha, if_false, hb, hb2]

theorem rsatPhase_zero (s : State κ) : rsatPhase s 0 = 0 := by
  unfold rsatPhase
  simp only []
  split_ifs <;> simp

theorem scanClauses_frame (last : Int) :
    ∀ (n : Nat) (s : State κ) (r : Option Nat) (s1 : State κ),
      scanClauses s last n = some (r, s1) → s1 = { s with nextClause := s1.nextClause } := by
  intro n
  induction n with
  | zero =>
    intro s r s1 h
    simp only [scanClauses, Option.some.injEq, Prod.mk.injEq] at h
    rw [← h.2]
  | succ n ih =>
    intro s r s1 h
    simp only [scanClauses] at h
    cases hc : s.clauses[(last + (n : Int)).toNat]? with
    | none => simp [hc] at h
    | some c =>
      simp only [hc] at h
      cases hsat : c.any (SET s) with
      | true =>
        simp only [hsat, if_true] at h
        have := ih _ r s1 h
        rw [this]
      | false =>
        simp only [hsat, Bool.false_eq_true, if_false, Option.some.injEq,
          Prod.mk.injEq] at h
        rw [← h.2]

theorem selectVar_frame (s : State κ) (r : Option Nat) (s1 : State κ)
    (h : selectVar s = some (r, s1)) :
    s1 = { s with nextClause := s1.nextClause, nextVar := s1.nextVar } := by
  unfold selectVar at h
  simp only [] at h
  split at h
  · simp at h
  · rename_i x s2 hscan
    have hf := scanClauses_frame _ _ _ _ _ hscan
    simp only [Option.some.injEq, Prod.mk.injEq] at h
    rw [← h.2, hf]
  · rename_i s2 hscan
    have hf := scanClauses_frame _ _ _ _ _ hscan
    split at h
    · simp only [Option.some.injEq, Prod.mk.injEq] at h
      rw [← h.2, hf]
    · simp only [Option.some.injEq, Prod.mk.injEq] at h
      rw [← h.2, hf]

/-- Claim C7, as stated, fails.  The chosen variable has counters 3000000000 and
0, both 32-bit values, of difference above 32; the literal returned is `-1`, not
`+1`: the difference is stored in an `int`, where it is negative. -/
theorem selectLiteral_phase_counterexample :
    (selectVar wrapDemo).map Prod.fst = some (some 1) ∧
    ACTIVITY wrapDemo 1 1 < 2 ^ 32 ∧ ACTIVITY wrapDemo 1 0 < 2 ^ 32 ∧
    (ACTIVITY wrapDemo 1 1 : Int) - (ACTIVITY wrapDemo 1 0 : Int) > 32 ∧
    (selectLiteral wrapDemo).map Prod.fst = some (-1) := by
  refine ⟨by decide, by decide, by decide, by decide, by decide⟩

/-- Claim C7, amended.  For the variable `x` chosen by `selectLiteral` on either
path, when the mathematical difference `d` of its positive and negative counters
lies strictly between `-2^31` and `2^31`, the literal returned is `+x` if
`d > 32`, `-x` if `d < -32`, and otherwise `+x` or `-x` as `phase[x]` is positive
or negative. -/
theorem selectLiteral_phase (s s1 : State κ) (x : Nat)
    (hsel : selectVar s = some (some x, s1))
    (h1 : -(2 ^ 31) < (ACTIVITY s x 1 : Int) - (ACTIVITY s x 0 : Int))
    (h2 : (ACTIVITY s x 1 : Int) - (ACTIVITY s x 0 : Int) < 2 ^ 31) :
    selectLiteral s = some
      (if (ACTIVITY s x 1 : Int) - (ACTIVITY s x 0 : Int) > 32 then (x : Int)
       else if (ACTIVITY s x 1 : Int) - (ACTIVITY s x 0 : Int) < -32 then -(x : Int)
       else if s.phase x then (x : Int) else -(x : Int), s1) := by
  have hf := selectVar_frame s _ s1 hsel
  have ha : ∀ p, ACTIVITY s1 x p = ACTIVITY s x p := by
    intro p; rw [hf]; rfl
  have hph : s1.phase x = s.phase x := by rw [hf]
  have hr := rsatPhase_exact s1 x (by rw [ha 1, ha 0]; exact h1) (by rw [ha 1, ha 0]; exact h2)
  rw [ha 1, ha 0, hph] at hr
  simp only [selectLiteral, hsel, hr]

/-- The first variable of the order is chosen with equal halves of activity
difference 1, so the saved phase decides. -/
theorem selectLiteral_phase_witness :
    selectVar searchDemo = some (some 1, { searchDemo with nextVar := 0 + 1 }) ∧
    -(2 ^ 31) < (ACTIVITY searchDemo 1 1 : Int) - (ACTIVITY searchDemo 1 0 : Int) ∧
    (ACTIVITY searchDemo 1 1 : Int) - (ACTIVITY searchDemo 1 0 : Int) < 2 ^ 31 ∧
    selectLiteral searchDemo = some
      (if (ACTIVITY searchDemo 1 1 : Int) - (ACTIVITY searchDemo 1 0 : Int) > 32
        then ((1 : Nat) : Int)
       else if (ACTIVITY searchDemo 1 1 : Int) - (ACTIVITY searchDemo 1 0 : Int) < -32
        then -((1 : Nat) : Int)
       else if searchDemo.phase 1 then ((1 : Nat) : Int) else -((1 : Nat) : Int),
       { searchDemo with nextVar := 0 + 1 }) :=
  ⟨rfl, by decide, by decide,
    selectLiteral_phase searchDemo _ 1 rfl (by decide) (by decide)⟩

theorem bestVar_none_free (s : State κ) (c : List Int)
    (h : ∀ l ∈ c, FREE s l = false) : bestVar s c = 0 := by
  have key : ∀ (c : List Int) (acc : Nat × Int), (∀ l ∈ c, FREE s l = false) →
      c.foldl (bestStep s) acc = acc := by
    intro c
    induction c with
    | nil => intro acc _; rfl
    | cons l c ih =>
      intro acc hc
      have hl : FREE s l = false := hc l (by simp)
      simp only [List.foldl_cons, bestStep, hl, Bool.false_and, Bool.false_eq_true, if_false]
      exact ih acc (fun x hx => hc x (by simp [hx]))
  unfold bestVar
  rw [key c _ h]

theorem scanOrder_all_assigned (s : State κ)
    (h : ∀ i, i < s.nVars → s.assigned (s.varOrder i) = true) :
    ∀ n, n ≤ s.nVars → scanOrder s n = none := by
  intro n
  induction n with
  | zero => intro _; rfl
  | succ n ih =>
    intro hn
    have hi : s.assigned (s.varOrder (s.nVars - (n + 1))) = true := h _ (by omega)
    simp only [scanOrder, hi, Bool.not_true, Bool.false_eq_true, if_false]
    exact ih (by omega)

theorem scanClauses_all_assigned (last : Int) (hlast : 0 ≤ last) :
    ∀ (n : Nat) (s : State κ),
      (∀ c ∈ s.clauses, ∀ l ∈ c, FREE s l = false) →
      last + (n : Int) ≤ (s.clauses.length : Int) →
      ∃ r s1, scanClauses s last n = some (r, s1) ∧ (r = none ∨ r = some 0) := by
  intro n
  induction n with
  | zero => intro s _ _; exact ⟨none, s, rfl, Or.inl rfl⟩
  | succ n ih =>
    intro s hfree hlen
    have hidx : (last + (n : Int)).toNat < s.clauses.length := by
      push_cast at hlen; omega
    have hget : s.clauses[(last + (n : Int)).toNat]?
        = some (s.clauses[(last + (n : Int)).toNat]) := List.getElem?_eq_getElem hidx
    have hmem : s.clauses[(last + (n : Int)).toNat] ∈ s.clauses := List.getElem_mem _
    simp only [scanClauses, hget]
    cases hsat : (s.clauses[(last + (n : Int)).toNat]).any (SET s) with
    | true =>
      simp only [if_true]
      exact ih { s with nextClause := last + (n : Int) } hfree (by push_cast at hlen ⊢; omega)
    | false =>
      simp only [Bool.false_eq_true, if_false]
      exact ⟨_, _, rfl, Or.inr (by rw [bestVar_none_free s _ (hfree _ hmem)])⟩

/-- Claim C8.  In a state where every variable of `[1, V]` is assigned, the
literals of the learned clauses and the entries of `varOrder` below `nVars` being
variables of `[1, V]`, and `nextClause` being within `[-1, clauses.size() - 1]`,
`selectLiteral` returns 0. -/
theorem selectLiteral_all_assigned (s : State κ)
    (hasg : ∀ v, 1 ≤ v → v ≤ s.vc → s.assigned v = true)
    (hlits : ∀ c ∈ s.clauses, ∀ l ∈ c, l ≠ 0 ∧ VAR l ≤ s.vc)
    (hord : ∀ i, i < s.nVars → 1 ≤ s.varOrder i ∧ s.varOrder i ≤ s.vc)
    (hlo : -1 ≤ s.nextClause) (hhi : s.nextClause < (s.clauses.length : Int)) :
    ∃ s', selectLiteral s = some (0, s') := by
  have hfree : ∀ c ∈ s.clauses, ∀ l ∈ c, FREE s l = false := by
    intro c hc l hl
    obtain ⟨hne, hle⟩ := hlits c hc l hl
    have h1 : 1 ≤ VAR l := by
      unfold VAR; have := Int.natAbs_pos.2 hne; omega
    simp [FREE, hasg (VAR l) h1 hle]
  have hlast : (0 : Int) ≤ if s.nextClause > 256 then s.nextClause - 256 else 0 := by
    split_ifs <;> omega
  have hlen : (if s.nextClause > 256 then s.nextClause - 256 else 0)
      + (((s.nextClause - (if s.nextClause > 256 then s.nextClause - 256 else 0) + 1).toNat
          : Nat) : Int) ≤ (s.clauses.length : Int) := by
    split_ifs <;> omega
  obtain ⟨r, s1, hscan, hr⟩ := scanClauses_all_assigned _ hlast _ s hfree hlen
  have hf := scanClauses_frame _ _ _ _ _ hscan
  rcases hr with rfl | rfl
  · have hall : ∀ i, i < s1.nVars → s1.assigned (s1.varOrder i) = true := by
      rw [hf]
      intro i hi
      exact hasg _ (hord i hi).1 (hord i hi).2
    have hso := scanOrder_all_assigned s1 hall (s1.nVars - s1.nextVar) (by omega)
    refine ⟨s1, ?_⟩
    simp only [selectLiteral, selectVar, hscan, hso]
  · refine ⟨s1, ?_⟩
    simp only [selectLiteral, selectVar, hscan, rsatPhase_zero]

/-- A complete assignment with an all-false learned clause under the cursor. -/
theorem selectLiteral_all_assigned_witness :
    (∀ v, 1 ≤ v → v ≤ fullDemo.vc → fullDemo.assigned v = true) ∧
    (∀ c ∈ fullDemo.clauses, ∀ l ∈ c, l ≠ 0 ∧ VAR l ≤ fullDemo.vc) ∧
    (∀ i, i < fullDemo.nVars → 1 ≤ fullDemo.varOrder i ∧ fullDemo.varOrder i ≤ fullDemo.vc) ∧
    -1 ≤ fullDemo.nextClause ∧ fullDemo.nextClause < (fullDemo.clauses.length : Int) ∧
    ∃ s', selectLiteral fullDemo = some (0, s') :=
  have hasg : ∀ v, 1 ≤ v → v ≤ fullDemo.vc → fullDemo.assigned v = true := by
    intro v h1 h2
    have h3 : v ≤ 3 := h2
    interval_cases v <;> rfl
  have hlits : ∀ c ∈ fullDemo.clauses, ∀ l ∈ c, l ≠ 0 ∧ VAR l ≤ fullDemo.vc := by decide
  have hord : ∀ i, i < fullDemo.nVars →
      1 ≤ fullDemo.varOrder i ∧ fullDemo.varOrder i ≤ fullDemo.vc := by
    intro i hi
    have h3 : i < 3 := hi
    interval_cases i <;> decide
  ⟨hasg, hlits, hord, by decide, by decide,
    selectLiteral_all_assigned fullDemo hasg hlits hord (by decide) (by decide)⟩

/-! ## The model at the end of `run` -/

theorem scanOrder_some_unassigned (s : State κ) :
    ∀ n i, scanOrder s n = some i → s.assigned (s.varOrder i) = false := by
  intro n
  induction n with
  | zero => intro i h; simp [scanOrder] at h
  | succ n ih =>
    intro i h
    simp only [scanOrder] at h
    split at h
    · rename_i hfree
      simp only [Option.some.injEq] at h
      rw [← h]; simpa using hfree
    · exact ih i h

theorem scanOrder_none (s : State κ) :
    ∀ n, scanOrder s n = none →
      ∀ i, s.nVars - n ≤ i → i < s.nVars → s.assigned (s.varOrder i) = true := by
  intro n
  induction n with
  | zero => intro _ i h1 h2; omega
  | succ n ih =>
    intro h i h1 h2
    simp only [scanOrder] at h
    split at h
    · simp at h
    · rename_i hasg
      simp only [Bool.not_eq_true, Bool.not_eq_false_eq_eq_true] at hasg
      by_cases hi : i = s.nVars - (n + 1)
      · rw [hi]
        cases hv : s.assigned (s.varOrder (s.nVars - (n + 1))) with
        | true => rfl
        | false => simp [hv] at hasg
      · exact ih h i (by omega) h2

theorem rsatPhase_eq_zero (s : State κ) (x : Nat) (h : rsatPhase s x = 0) : x = 0 := by
  unfold rsatPhase at h
  simp only [] at h
  split_ifs at h <;> omega

theorem foldl_keeps {α β : Type} (f : State κ → β) (step : State κ → α → State κ)
    (h : ∀ t i, f (step t i) = f t) : ∀ (xs : List α) (t : State κ), f (xs.foldl step t) = f t := by
  intro xs
  induction xs with
  | nil => intro t; rfl
  | cons x xs ih => intro t; rw [List.foldl_cons, ih, h]

theorem collectVar_pos (t : State κ) (x : Nat) (hx : eligible t.assigned t.activity x = true) :
    collectVar t x = { t with
      varOrder := Function.update t.varOrder t.nVars x
      nVars := t.nVars + 1
      phase := Function.update t.phase x
        (Decidable.decide (t.activity (x * 2 + 1) > t.activity (x * 2 + 0))) } := by
  have hx2 : (!t.assigned x && Decidable.decide (SCORE t x > 0)) = true := hx
  unfold collectVar; rw [if_pos hx2]; rfl

theorem collectVar_neg (t : State κ) (x : Nat) (hx : ¬ eligible t.assigned t.activity x = true) :
    collectVar t x = t := by
  have hx2 : ¬ (!t.assigned x && Decidable.decide (SCORE t x > 0)) = true := hx
  unfold collectVar; rw [if_neg hx2]

theorem collect_spec (asg : Nat → Bool) (act : Nat → Nat) :
    ∀ (xs : List Nat) (t : State κ), t.assigned = asg → t.activity = act →
      (xs.foldl collectVar t).nVars = t.nVars + (xs.filter (eligible asg act)).length ∧
      (∀ k, k < t.nVars → (xs.foldl collectVar t).varOrder k = t.varOrder k) ∧
      (∀ j, j < (xs.filter (eligible asg act)).length →
        (xs.filter (eligible asg act))[j]?
          = some ((xs.foldl collectVar t).varOrder (t.nVars + j))) ∧
      (∀ v, (xs.foldl collectVar t).phase v =
        if v ∈ xs.filter (eligible asg act)
        then Decidable.decide (act (v * 2 + 1) > act (v * 2 + 0)) else t.phase v) := by
  intro xs
  induction xs with
  | nil => intro t _ _; simp
  | cons x xs ih =>
    intro t ha hb
    simp only [List.foldl_cons]
    by_cases hx : eligible asg act x = true
    · have e := collectVar_pos t x (by rw [ha, hb]; exact hx)
      have e1 : (collectVar t x).assigned = asg := by rw [e]; exact ha
      have e2 : (collectVar t x).activity = act := by rw [e]; exact hb
      have e3 : (collectVar t x).nVars = t.nVars + 1 := by rw [e]
      have e4 : (collectVar t x).varOrder = Function.update t.varOrder t.nVars x := by rw [e]
      have e5 : (collectVar t x).phase = Function.update t.phase x
          (Decidable.decide (act (x * 2 + 1) > act (x * 2 + 0))) := by rw [e, hb]
      obtain ⟨h4, h5, h6, h7⟩ := ih (collectVar t x) e1 e2
      rw [e3] at h4 h5 h6
      simp only [List.filter_cons, hx, if_true, List.length_cons]
      refine ⟨by rw [h4]; omega, ?_, ?_, ?_⟩
      · intro k hk
        rw [h5 k (by omega), e4, Function.update_noteq (by omega)]
      · intro j hj
        cases j with
        | zero =>
          simp only [List.getElem?_cons_zero, Nat.add_zero]
          rw [h5 t.nVars (by omega), e4]
          simp
        | succ j =>
          simp only [List.getElem?_cons_succ]
          rw [h6 j (by omega)]
          congr 2
          omega
      · intro v
        rw [h7 v, e5]
        by_cases hv : v ∈ xs.filter (eligible asg act)
        · simp [hv]
        · simp only [hv, if_false, List.mem_cons, or_false]
          by_cases hvx : v = x
          · subst hvx; simp
          · simp only [hvx, if_false]
            rw [Function.update_noteq hvx]
    · have e := collectVar_neg t x (by rw [ha, hb]; exact hx)
      rw [e]
      simp only [List.filter_cons, hx, if_false]
      exact ih t ha hb

theorem collectVar_keeps (t : State κ) (i : Nat) :
    (collectVar t i).assigned = t.assigned ∧ (collectVar t i).activity = t.activity ∧
    (collectVar t i).vc = t.vc ∧ (collectVar t i).truthVal = t.truthVal ∧
    (collectVar t i).clauses = t.clauses ∧
    (collectVar t i).currentDLevel = t.currentDLevel ∧
    (collectVar t i).nDecisions = t.nDecisions ∧
    (collectVar t i).nConflicts = t.nConflicts ∧
    (collectVar t i).litPool0 = t.litPool0 ∧
    (collectVar t i).litPoolSizeOrig = t.litPoolSizeOrig := by
  unfold collectVar
  split <;> simp

theorem recordPosition_spec (ord : Nat → Nat) :
    ∀ (n : Nat) (t : State κ), t.varOrder = ord →
      (∀ i j, i < n → j < n → ord i = ord j → i = j) →
      ∀ i, i < n → ((List.range n).foldl recordPosition t).varPosition (ord i) = i := by
  intro n
  induction n with
  | zero => intro t _ _ i hi; omega
  | succ n ih =>
    intro t ho hinj i hi
    have hkeep : ((List.range n).foldl recordPosition t).varOrder = ord := by
      rw [foldl_keeps (fun s => s.varOrder) recordPosition (fun _ _ => rfl)]; exact ho
    rw [List.range_succ, List.foldl_append]
    simp only [List.foldl_cons, List.foldl_nil, recordPosition, hkeep]
    by_cases hin : i = n
    · subst hin; simp
    · have hne : ord i ≠ ord n := fun h => hin (hinj i n hi (by omega) h)
      rw [Function.update_noteq hne]
      exact ih t ho (fun a b ha hb => hinj a b (by omega) (by omega)) i (by omega)

theorem SCORE_eq (s : State κ) (v : Nat) :
    SCORE s v = (s.activity (v * 2 + 0) + s.activity (v * 2 + 1)) % 2 ^ 32 := rfl

theorem map_range_eq (f : Nat → Nat) (F : List Nat) (n : Nat) (hn : n = F.length)
    (h : ∀ j, j < F.length → F[j]? = some (f j)) : (List.range n).map f = F := by
  subst hn
  apply List.ext_getElem?
  intro j
  by_cases hj : j < F.length
  · rw [h j hj]
    simp [List.getElem?_map, List.getElem?_range hj]
  · have h1 : F[j]? = none := List.getElem?_eq_none (by omega)
    rw [h1]
    exact List.getElem?_eq_none (by simp; omega)

theorem getD_inj_of_nodup (l : List Nat) (hnd : l.Nodup) (d e : Nat) (i j : Nat)
    (hi : i < l.length) (hj : j < l.length) (h : l.getD i d = l.getD j e) : i = j := by
  rw [List.getD_eq_getElem _ _ hi, List.getD_eq_getElem _ _ hj] at h
  exact (List.Nodup.getElem_inj_iff hnd).1 h

theorem initOrder_spec (E : Engine κ) (s2 : State κ)
    (hperm : ∀ cmp l, (E.sort cmp l).Perm l) :
    (initOrder E s2).assigned = s2.assigned ∧
    (initOrder E s2).activity = s2.activity ∧
    (initOrder E s2).vc = s2.vc ∧
    (initOrder E s2).nextVar = 0 ∧
    ∃ (t : State κ) (sorted : List Nat),
      t.activity = s2.activity ∧
      sorted = E.sort (compScores t)
        ((List.range' 1 s2.vc).filter (eligible s2.assigned s2.activity)) ∧
      sorted.Perm ((List.range' 1 s2.vc).filter (eligible s2.assigned s2.activity)) ∧
      (initOrder E s2).nVars = sorted.length ∧
      (∀ i, i < sorted.length → sorted[i]? = some ((initOrder E s2).varOrder i)) ∧
      (∀ i, i < sorted.length →
        (initOrder E s2).varPosition ((initOrder E s2).varOrder i) = i) ∧
      (∀ v, v ∈ sorted → (initOrder E s2).phase v =
        Decidable.decide (s2.activity (v * 2 + 1) > s2.activity (v * 2 + 0))) := by
  obtain ⟨c1, _, c3, c4⟩ := collect_spec s2.assigned s2.activity (List.range' 1 s2.vc)
    { s2 with nVars := 0 } rfl rfl
  simp only [Nat.zero_add] at c1 c3
  generalize hs3 : (List.range' 1 s2.vc).foldl collectVar { s2 with nVars := 0 } = s3
    at c1 c3 c4
  generalize hF : (List.range' 1 s2.vc).filter (eligible s2.assigned s2.activity) = F
    at c1 c3 c4
  have k1 : s3.assigned = s2.assigned := by
    rw [← hs3, foldl_keeps (fun s => s.assigned) collectVar
      (fun t i => (collectVar_keeps t i).1)]
  have k2 : s3.activity = s2.activity := by
    rw [← hs3, foldl_keeps (fun s => s.activity) collectVar
      (fun t i => (collectVar_keeps t i).2.1)]
  have k3 : s3.vc = s2.vc := by
    rw [← hs3, foldl_keeps (fun s => s.vc) collectVar
      (fun t i => (collectVar_keeps t i).2.2.1)]
  have hlive : (List.range s3.nVars).map s3.varOrder = F := map_range_eq _ _ _ c1 c3
  have hnd : F.Nodup := by
    rw [← hF]; exact (List.nodup_range' 1 s2.vc).filter _
  have hp : (E.sort (compScores s3) F).Perm F := hperm _ _
  have hlen : (E.sort (compScores s3) F).length = F.length := hp.length_eq
  have hio : initOrder E s2 =
      { (List.range (sortOrder E s3).nVars).foldl recordPosition (sortOrder E s3) with
        nextVar := 0
        nextClause := ((((List.range (sortOrder E s3).nVars).foldl recordPosition
          (sortOrder E s3)).clauses.length : Nat) : Int) - 1 } := by
    unfold initOrder; simp only [hs3]
  have hso : sortOrder E s3 =
      { s3 with varOrder := fun k => (E.sort (compScores s3) F).getD k (s3.varOrder k) } := by
    unfold sortOrder; simp only [hlive]
  have q1 : ∀ {β : Type} (f : State κ → β), (∀ t i, f (recordPosition t i) = f t) →
      f ((List.range (sortOrder E s3).nVars).foldl recordPosition (sortOrder E s3))
        = f (sortOrder E s3) := fun f hf => foldl_keeps f recordPosition hf _ _
  have r1 : (initOrder E s2).assigned = s2.assigned := by
    rw [hio]; simp only []; rw [q1 (fun s => s.assigned) (fun _ _ => rfl), hso]; exact k1
  have r2 : (initOrder E s2).activity = s2.activity := by
    rw [hio]; simp only []; rw [q1 (fun s => s.activity) (fun _ _ => rfl), hso]; exact k2
  have r3 : (initOrder E s2).vc = s2.vc := by
    rw [hio]; simp only []; rw [q1 (fun s => s.vc) (fun _ _ => rfl), hso]; exact k3
  have r4 : (initOrder E s2).nVars = F.length := by
    rw [hio]; simp only []; rw [q1 (fun s => s.nVars) (fun _ _ => rfl), hso]; exact c1
  have r5 : (initOrder E s2).varOrder
      = fun k => (E.sort (compScores s3) F).getD k (s3.varOrder k) := by
    rw [hio]; simp only []; rw [q1 (fun s => s.varOrder) (fun _ _ => rfl), hso]
  have r6 : (initOrder E s2).phase = s3.phase := by
    rw [hio]; simp only []; rw [q1 (fun s => s.phase) (fun _ _ => rfl), hso]
  have r7 : (initOrder E s2).varPosition
      = ((List.range F.length).foldl recordPosition (sortOrder E s3)).varPosition := by
    rw [hio]; simp only []
    have : (sortOrder E s3).nVars = F.length := by rw [hso]; exact c1
    rw [this]
  refine ⟨r1, r2, r3, by rw [hio], s3, E.sort (compScores s3) F, k2, rfl, hp,
    by rw [r4, hlen], ?_, ?_, ?_⟩
  · intro i hi
    rw [r5]
    simp only []
    rw [List.getD_eq_getElem _ _ hi]
    exact List.getElem?_eq_getElem hi
  · intro i hi
    rw [r7, r5]
    have hord : (sortOrder E s3).varOrder
        = fun k => (E.sort (compScores s3) F).getD k (s3.varOrder k) := by rw [hso]
    exact recordPosition_spec _ F.length (sortOrder E s3) hord
      (fun a b ha hb hab => getD_inj_of_nodup _ (hp.nodup_iff.2 hnd) _ _ a b
        (by omega) (by omega) hab) i (by omega)
  · intro v hv
    rw [r6, c4 v, if_pos (hp.mem_iff.1 hv)]

theorem initOrder_keeps (E : Engine κ) (s2 : State κ) :
    (initOrder E s2).truthVal = s2.truthVal ∧
    (initOrder E s2).clauses = s2.clauses ∧
    (initOrder E s2).currentDLevel = s2.currentDLevel ∧
    (initOrder E s2).nDecisions = s2.nDecisions ∧
    (initOrder E s2).nConflicts = s2.nConflicts ∧
    (initOrder E s2).nextClause = (s2.clauses.length : Int) - 1 := by
  have q : ∀ {β : Type} (f : State κ → β), (∀ t i, f (recordPosition t i) = f t) →
      (∀ t, f (sortOrder E t) = f t) → (∀ t i, f (collectVar t i) = f t) →
      (f { s2 with nVars := 0 } = f s2) →
      f ((List.range (sortOrder E ((List.range' 1 s2.vc).foldl collectVar
            { s2 with nVars := 0 })).nVars).foldl recordPosition
          (sortOrder E ((List.range' 1 s2.vc).foldl collectVar { s2 with nVars := 0 })))
        = f s2 := by
    intro β f h1 h2 h3 h4
    rw [foldl_keeps f recordPosition h1, h2, foldl_keeps f collectVar h3, h4]
  have hc := q (fun s => s.clauses) (fun _ _ => rfl) (fun _ => rfl)
    (fun t i => (collectVar_keeps t i).2.2.2.2.1) rfl
  refine ⟨q (fun s => s.truthVal) (fun _ _ => rfl) (fun _ => rfl)
      (fun t i => (collectVar_keeps t i).2.2.2.1) rfl, hc,
    q (fun s => s.currentDLevel) (fun _ _ => rfl) (fun _ => rfl)
      (fun t i => (collectVar_keeps t i).2.2.2.2.2.1) rfl,
    q (fun s => s.nDecisions) (fun _ _ => rfl) (fun _ => rfl)
      (fun t i => (collectVar_keeps t i).2.2.2.2.2.2.1) rfl,
    q (fun s => s.nConflicts) (fun _ _ => rfl) (fun _ => rfl)
      (fun t i => (collectVar_keeps t i).2.2.2.2.2.2.2.1) rfl, ?_⟩
  show (((List.range _).foldl recordPosition _).clauses.length : Int) - 1 = _
  simp only [] at hc
  rw [hc]

theorem eligible_iff (asg : Nat → Bool) (act : Nat → Nat) (v : Nat) :
    eligible asg act v = true ↔
      asg v = false ∧ 0 < (act (v * 2 + 0) + act (v * 2 + 1)) % 2 ^ 32 := by
  simp [eligible]

theorem SatSolver_eq_initOrder (E : Engine κ) (s0 : State κ) (hlev : s0.currentDLevel ≠ 0) :
    SatSolver E s0 = initOrder E ((List.range' 1 s0.vc).foldl (assertPure E)
      { s0 with rest := (E.lubyNext s0.rest).2, lubyUnit := 512
                nextRestart := ((E.lubyNext s0.rest).1 * 512) % 2 ^ 32
                nextDecay := HALFLIFE }) := by
  unfold SatSolver
  simp only [hlev, if_false]

/-- Claim C10.  After construction at a nonzero decision level, `std::sort`
returning a permutation of its range that is ordered for its comparison:
`varOrder[0..nVars)` holds exactly the variables of `[1, V]` that are unassigned
and of positive score, each once; scores do not increase along it;
`varPosition[varOrder[i]] == i` for every `i < nVars`; `nextVar == 0`; and the
phase of each such variable is positive exactly when its positive counter is
strictly greater than its negative one. -/
theorem SatSolver_order (E : Engine κ) (s0 : State κ) (hlev : s0.currentDLevel ≠ 0)
    (hperm : ∀ cmp l, (E.sort cmp l).Perm l)
    (hsorted : ∀ (t : State κ) l,
      (E.sort (compScores t) l).Pairwise (fun a b => compScores t b a = false)) :
    (∀ v, (∃ i, i < (SatSolver E s0).nVars ∧ (SatSolver E s0).varOrder i = v) ↔
      (1 ≤ v ∧ v ≤ (SatSolver E s0).vc ∧ (SatSolver E s0).assigned v = false ∧
        0 < SCORE (SatSolver E s0) v)) ∧
    (∀ i j, i < (SatSolver E s0).nVars → j < (SatSolver E s0).nVars →
      (SatSolver E s0).varOrder i = (SatSolver E s0).varOrder j → i = j) ∧
    (∀ i j, i < j → j < (SatSolver E s0).nVars →
      SCORE (SatSolver E s0) ((SatSolver E s0).varOrder i)
        ≥ SCORE (SatSolver E s0) ((SatSolver E s0).varOrder j)) ∧
    (∀ i, i < (SatSolver E s0).nVars →
      (SatSolver E s0).varPosition ((SatSolver E s0).varOrder i) = i) ∧
    (SatSolver E s0).nextVar = 0 ∧
    (∀ i, i < (SatSolver E s0).nVars →
      (SatSolver E s0).phase ((SatSolver E s0).varOrder i) =
        Decidable.decide (ACTIVITY (SatSolver E s0) ((SatSolver E s0).varOrder i) 1
          > ACTIVITY (SatSolver E s0) ((SatSolver E s0).varOrder i) 0)) := by
  rw [SatSolver_eq_initOrder E s0 hlev]
  generalize (List.range' 1 s0.vc).foldl (assertPure E) _ = s2
  obtain ⟨r1, r2, r3, r4, t, sorted, ht, hsort, hp, hn, hget, hpos, hph⟩ :=
    initOrder_spec E s2 hperm
  have hpw : sorted.Pairwise (fun a b => SCORE s2 a ≥ SCORE s2 b) := by
    rw [hsort]
    refine (hsorted t _).imp ?_
    intro a b hab
    have hab2 : ¬ SCORE t b > SCORE t a := by simpa [compScores] using hab
    rw [SCORE_eq, SCORE_eq, ht] at hab2
    rw [SCORE_eq, SCORE_eq]
    omega
  have hnd : sorted.Nodup :=
    hp.nodup_iff.2 ((List.nodup_range' 1 s2.vc).filter _)
  have hge : ∀ i (h : i < sorted.length), sorted[i] = (initOrder E s2).varOrder i := by
    intro i h
    have := hget i h
    rw [List.getElem?_eq_getElem h] at this
    exact Option.some.inj this
  have hsc : ∀ v, SCORE (initOrder E s2) v = SCORE s2 v := by
    intro v; rw [SCORE_eq, SCORE_eq, r2]
  rw [hn]
  refine ⟨?_, ?_, ?_, hpos, r4, ?_⟩
  · intro v
    have hmem : v ∈ sorted ↔ (1 ≤ v ∧ v ≤ s2.vc ∧ s2.assigned v = false ∧ 0 < SCORE s2 v) := by
      rw [hp.mem_iff, List.mem_filter, List.mem_range'_1, eligible_iff, SCORE_eq]
      constructor
      · rintro ⟨⟨h1, h2⟩, h3, h4⟩; exact ⟨h1, by omega, h3, h4⟩
      · rintro ⟨h1, h2, h3, h4⟩; exact ⟨⟨h1, by omega⟩, h3, h4⟩
    rw [r3, r1, hsc, ← hmem, List.mem_iff_getElem]
    constructor
    · rintro ⟨i, hi, rfl⟩; exact ⟨i, hi, hge i hi⟩
    · rintro ⟨i, hi, rfl⟩; exact ⟨i, hi, (hge i hi).symm⟩
  · intro i j hi hj h
    rw [← hge i hi, ← hge j hj] at h
    exact (List.Nodup.getElem_inj_iff hnd).1 h
  · intro i j hij hj
    rw [hsc, hsc, ← hge i (by omega), ← hge j hj]
    exact List.pairwise_iff_getElem.1 hpw i j (by omega) hj hij
  · intro i hi
    rw [hph _ (by rw [← hge i hi]; exact List.getElem_mem _)]
    simp only [ACTIVITY, r2]

theorem plainEngine_sort_perm (cmp : Nat → Nat → Bool) (l : List Nat) :
    (plainEngine.sort cmp l).Perm l :=
  List.perm_insertionSort _ l

theorem plainEngine_sort_sorted (t : State Unit) (l : List Nat) :
    (plainEngine.sort (compScores t) l).Pairwise (fun a b => compScores t b a = false) := by
  haveI : IsTotal Nat (fun a b => compScores t b a = false) :=
    ⟨fun a b => by simp only [compScores, decide_eq_false_iff_not]; omega⟩
  haveI : IsTrans Nat (fun a b => compScores t b a = false) :=
    ⟨fun a b c => by simp only [compScores, decide_eq_false_iff_not]; omega⟩
  exact List.sorted_insertionSort (fun a b => compScores t b a = false) l

/-- The order built for a formula of four variables with scores 5, 4, 4, 2. -/
theorem SatSolver_order_witness :
    mixedBase.currentDLevel ≠ 0 ∧
    (∀ cmp l, (plainEngine.sort cmp l).Perm l) ∧
    (∀ (t : State Unit) l,
      (plainEngine.sort (compScores t) l).Pairwise (fun a b => compScores t b a = false)) ∧
    ((∀ v, (∃ i, i < (SatSolver plainEngine mixedBase).nVars ∧
          (SatSolver plainEngine mixedBase).varOrder i = v) ↔
        (1 ≤ v ∧ v ≤ (SatSolver plainEngine mixedBase).vc ∧
          (SatSolver plainEngine mixedBase).assigned v = false ∧
          0 < SCORE (SatSolver plainEngine mixedBase) v)) ∧
      (∀ i j, i < (SatSolver plainEngine mixedBase).nVars →
        j < (SatSolver plainEngine mixedBase).nVars →
        (SatSolver plainEngine mixedBase).varOrder i
          = (SatSolver plainEngine mixedBase).varOrder j → i = j) ∧
      (∀ i j, i < j → j < (SatSolver plainEngine mixedBase).nVars →
        SCORE (SatSolver plainEngine mixedBase) ((SatSolver plainEngine mixedBase).varOrder i)
          ≥ SCORE (SatSolver plainEngine mixedBase)
              ((SatSolver plainEngine mixedBase).varOrder j)) ∧
      (∀ i, i < (SatSolver plainEngine mixedBase).nVars →
        (SatSolver plainEngine mixedBase).varPosition
          ((SatSolver plainEngine mixedBase).varOrder i) = i) ∧
      (SatSolver plainEngine mixedBase).nextVar = 0 ∧
      (∀ i, i < (SatSolver plainEngine mixedBase).nVars →
        (SatSolver plainEngine mixedBase).phase ((SatSolver plainEngine mixedBase).varOrder i) =
          Decidable.decide
            (ACTIVITY (SatSolver plainEngine mixedBase)
                ((SatSolver plainEngine mixedBase).varOrder i) 1
              > ACTIVITY (SatSolver plainEngine mixedBase)
                  ((SatSolver plainEngine mixedBase).varOrder i) 0))) :=
  ⟨by decide, plainEngine_sort_perm, plainEngine_sort_sorted,
    SatSolver_order plainEngine mixedBase (by decide) plainEngine_sort_perm
      plainEngine_sort_sorted⟩

theorem setLiteral_keeps (t : State κ) (lit : Int) (ante : Option (List Int)) :
    (setLiteral t lit ante).nConflicts = t.nConflicts ∧
    (setLiteral t lit ante).activity = t.activity ∧
    (setLiteral t lit ante).clauses = t.clauses ∧
    (setLiteral t lit ante).nDecisions = t.nDecisions ∧
    (setLiteral t lit ante).currentDLevel = t.currentDLevel ∧
    (setLiteral t lit ante).vc = t.vc ∧
    (setLiteral t lit ante).assigned = Function.update t.assigned (VAR lit) true ∧
    (setLiteral t lit ante).truthVal = Function.update t.truthVal (VAR lit) (SIGN lit) :=
  ⟨rfl, rfl, rfl, rfl, rfl, rfl, rfl, rfl⟩

theorem assertPure_step (E : Engine κ) (boot : State κ → Prop)
    (hkeep : ∀ (t : State κ) (lit : Int), boot t → boot (setLiteral t lit none))
    (hengine : ∀ (t : State κ) (lit : Int), boot t → FREE t lit = true →
      ACTIVITY t (VAR lit) (if SIGN (NEG lit) then 1 else 0) = 0 →
      E.assertLiteral t lit none = (true, setLiteral t lit none))
    (t : State κ) (i : Nat) (hc : boot t) (hi1 : 1 ≤ i) :
    boot (assertPure E t i) ∧
    (assertPure E t i).nConflicts = t.nConflicts ∧
    (assertPure E t i).activity = t.activity ∧
    (assertPure E t i).clauses = t.clauses ∧
    (assertPure E t i).nDecisions = t.nDecisions ∧
    (assertPure E t i).currentDLevel = t.currentDLevel ∧
    (assertPure E t i).vc = t.vc ∧
    (∀ v, v ≠ i → (assertPure E t i).assigned v = t.assigned v ∧
      (assertPure E t i).truthVal v = t.truthVal v) ∧
    (t.assigned i = false → ACTIVITY t i 1 = 0 → 0 < ACTIVITY t i 0 →
      (assertPure E t i).assigned i = true ∧ (assertPure E t i).truthVal i = false) ∧
    (t.assigned i = false → ACTIVITY t i 0 = 0 → 0 < ACTIVITY t i 1 →
      (assertPure E t i).assigned i = true ∧ (assertPure E t i).truthVal i = true) := by
  have hvn : VAR (-(i : Int)) = i := by simp [VAR]
  have hvp : VAR ((i : Int)) = i := by simp [VAR]
  have hsn : SIGN (-(i : Int)) = false := by simp [SIGN]
  have hsp : SIGN ((i : Int)) = true := by simp [SIGN]; omega
  have hsnn : SIGN (NEG (-(i : Int))) = true := by simp [SIGN, NEG]; omega
  have hspn : SIGN (NEG ((i : Int))) = false := by simp [SIGN, NEG]
  cases ha : t.assigned i with
  | true =>
    have e : assertPure E t i = t := by simp [assertPure, ha]
    rw [e]
    exact ⟨hc, rfl, rfl, rfl, rfl, rfl, rfl, fun _ _ => ⟨rfl, rfl⟩,
      fun h => by simp at h, fun h => by simp at h⟩
  | false =>
    by_cases h1 : ACTIVITY t i 1 = 0 ∧ ACTIVITY t i 0 > 0
    · have he := hengine t (-(i : Int)) hc (by simp [FREE, hvn, ha])
        (by rw [hvn, hsnn]; exact h1.1)
      have e : assertPure E t i = setLiteral t (-(i : Int)) none := by
        unfold assertPure
        rw [if_pos (by simp [ha]), if_pos h1, he]
      rw [e]
      obtain ⟨k1, k2, k3, k4, k5, k6, k7, k8⟩ := setLiteral_keeps t (-(i : Int)) none
      rw [hvn] at k7 k8
      rw [hsn] at k8
      refine ⟨hkeep t _ hc, k1, k2, k3, k4, k5, k6, ?_, ?_, ?_⟩
      · intro v hv
        rw [k7, k8, Function.update_noteq hv, Function.update_noteq hv]
        exact ⟨rfl, rfl⟩
      · intro _ _ _
        rw [k7, k8]; simp
      · intro _ h0 h1p
        omega
    · by_cases h2 : ACTIVITY t i 0 = 0 ∧ ACTIVITY t i 1 > 0
      · have he := hengine t ((i : Int)) hc (by simp [FREE, hvp, ha])
          (by rw [hvp, hspn]; exact h2.1)
        have e : assertPure E t i = setLiteral t ((i : Int)) none := by
          unfold assertPure
          rw [if_pos (by simp [ha]), if_neg h1, if_pos h2, he]
        rw [e]
        obtain ⟨k1, k2, k3, k4, k5, k6, k7, k8⟩ := setLiteral_keeps t ((i : Int)) none
        rw [hvp] at k7 k8
        rw [hsp] at k8
        refine ⟨hkeep t _ hc, k1, k2, k3, k4, k5, k6, ?_, ?_, ?_⟩
        · intro v hv
          rw [k7, k8, Function.update_noteq hv, Function.update_noteq hv]
          exact ⟨rfl, rfl⟩
        · intro _ h0 h1p
          omega
        · intro _ _ _
          rw [k7, k8]; simp
      · have e : assertPure E t i = t := by
          unfold assertPure
          rw [if_pos (by simp [ha]), if_neg h1, if_neg h2]
        rw [e]
        exact ⟨hc, rfl, rfl, rfl, rfl, rfl, rfl, fun _ _ => ⟨rfl, rfl⟩,
          fun _ h0 h1p => absurd ⟨h0, h1p⟩ h1, fun _ h0 h1p => absurd ⟨h0, h1p⟩ h2⟩

theorem pureLoop_spec (E : Engine κ) (boot : State κ → Prop)
    (hkeep : ∀ (t : State κ) (lit : Int), boot t → boot (setLiteral t lit none))
    (hengine : ∀ (t : State κ) (lit : Int), boot t → FREE t lit = true →
      ACTIVITY t (VAR lit) (if SIGN (NEG lit) then 1 else 0) = 0 →
      E.assertLiteral t lit none = (true, setLiteral t lit none)) :
    ∀ (xs : List Nat) (t : State κ), xs.Nodup → (∀ x ∈ xs, 1 ≤ x) → boot t →
      (xs.foldl (assertPure E) t).nConflicts = t.nConflicts ∧
      (xs.foldl (assertPure E) t).activity = t.activity ∧
      (xs.foldl (assertPure E) t).clauses = t.clauses ∧
      (xs.foldl (assertPure E) t).nDecisions = t.nDecisions ∧
      (xs.foldl (assertPure E) t).currentDLevel = t.currentDLevel ∧
      (xs.foldl (assertPure E) t).vc = t.vc ∧
      (∀ v, v ∉ xs → (xs.foldl (assertPure E) t).assigned v = t.assigned v ∧
        (xs.foldl (assertPure E) t).truthVal v = t.truthVal v) ∧
      (∀ v, v ∈ xs → t.assigned v = false →
        (ACTIVITY t v 1 = 0 → 0 < ACTIVITY t v 0 →
          (xs.foldl (assertPure E) t).assigned v = true ∧
          (xs.foldl (assertPure E) t).truthVal v = false) ∧
        (ACTIVITY t v 0 = 0 → 0 < ACTIVITY t v 1 →
          (xs.foldl (assertPure E) t).assigned v = true ∧
          (xs.foldl (assertPure E) t).truthVal v = true)) := by
  intro xs
  induction xs with
  | nil =>
    intro t _ _ hc
    exact ⟨rfl, rfl, rfl, rfl, rfl, rfl, fun _ _ => ⟨rfl, rfl⟩, fun v hv => by simp at hv⟩
  | cons x xs ih =>
    intro t hnd hpos hc
    obtain ⟨hx, hnd2⟩ := List.nodup_cons.1 hnd
    obtain ⟨a0, a1, a2, a3, a4, a5, a6, a7, a8, a9⟩ :=
      assertPure_step E boot hkeep hengine t x hc (hpos x (by simp))
    obtain ⟨b1, b2, b3, b4, b5, b6, b7, b8⟩ :=
      ih (assertPure E t x) hnd2 (fun y hy => hpos y (by simp [hy])) a0
    simp only [List.foldl_cons]
    refine ⟨by rw [b1, a1], by rw [b2, a2], by rw [b3, a3], by rw [b4, a4], by rw [b5, a5],
      by rw [b6, a6], ?_, ?_⟩
    · intro v hv
      have hvx : v ≠ x := fun h => hv (by simp [h])
      have hvxs : v ∉ xs := fun h => hv (by simp [h])
      rw [(b7 v hvxs).1, (b7 v hvxs).2]
      exact a7 v hvx
    · intro v hv hfree
      rcases List.mem_cons.1 hv with rfl | hvs
      · rw [(b7 v hx).1, (b7 v hx).2]
        exact ⟨a8 hfree, a9 hfree⟩
      · have hvx : v ≠ x := fun h => hx (h ▸ hvs)
        have hfree2 : (assertPure E t x).assigned v = false := by
          rw [(a7 v hvx).1]; exact hfree
        have h8 := b8 v hvs hfree2
        simp only [ACTIVITY, a2] at h8
        exact h8

/-- Claim C9.  Hypotheses: the base constructor ended at a nonzero level with
no decision, no conflict and no learned clause; every variable of positive score
is unassigned with one of its two counters zero; `boot` is a property of states
that holds when the pure-literal loop starts and that setting a literal keeps
(for the solver: no conflict has occurred and the counters are the numbers of
occurrences of the literals in the stored clauses); in a state with `boot`,
asserting a free literal whose complement has a zero counter only sets that
literal, there being no clause to propagate through; `std::sort` returns a
permutation of its range.  Then the constructor assigns each variable of
positive score the polarity of its nonzero counter and leaves `nVars == 0`, and
`run` returns true in the constructed state when the verifier accepts it, with
`nDecisions == 0` and `nConflicts == 0`. -/
theorem pure_bootstrap (E : Engine κ) (s0 : State κ) (boot : State κ → Prop)
    (hlev : s0.currentDLevel ≠ 0)
    (hfresh : s0.nDecisions = 0 ∧ s0.nConflicts = 0 ∧ s0.clauses = [])
    (hpure : ∀ v, 1 ≤ v → v ≤ s0.vc → 0 < SCORE s0 v →
      s0.assigned v = false ∧ (ACTIVITY s0 v 1 = 0 ∨ ACTIVITY s0 v 0 = 0))
    (hboot : boot { s0 with rest := (E.lubyNext s0.rest).2, lubyUnit := 512
                            nextRestart := ((E.lubyNext s0.rest).1 * 512) % 2 ^ 32
                            nextDecay := HALFLIFE })
    (hkeep : ∀ (t : State κ) (lit : Int), boot t → boot (setLiteral t lit none))
    (hengine : ∀ (t : State κ) (lit : Int), boot t → FREE t lit = true →
      ACTIVITY t (VAR lit) (if SIGN (NEG lit) then 1 else 0) = 0 →
      E.assertLiteral t lit none = (true, setLiteral t lit none))
    (hperm : ∀ cmp l, (E.sort cmp l).Perm l) :
    (∀ v, 1 ≤ v → v ≤ s0.vc → 0 < SCORE s0 v →
      (SatSolver E s0).assigned v = true ∧
      (SatSolver E s0).truthVal v = Decidable.decide (0 < ACTIVITY s0 v 1)) ∧
    (SatSolver E s0).nVars = 0 ∧
    (∀ fuel, verifySolution (SatSolver E s0) = some (true, SatSolver E s0) →
      run E (fuel + 1) (SatSolver E s0) = some (Outcome.ret true (SatSolver E s0))) ∧
    (SatSolver E s0).nDecisions = 0 ∧ (SatSolver E s0).nConflicts = 0 := by
  obtain ⟨hdec, hconf, hcl⟩ := hfresh
  rw [SatSolver_eq_initOrder E s0 hlev]
  obtain ⟨b1, b2, b3, b4, b5, b6, b7, b8⟩ := pureLoop_spec E boot hkeep hengine
    (List.range' 1 s0.vc)
    { s0 with rest := (E.lubyNext s0.rest).2, lubyUnit := 512
              nextRestart := ((E.lubyNext s0.rest).1 * 512) % 2 ^ 32
              nextDecay := HALFLIFE }
    (List.nodup_range' 1 s0.vc) (fun x hx => (List.mem_range'_1.1 hx).1) hboot
  generalize (List.range' 1 s0.vc).foldl (assertPure E) _ = s2 at b1 b2 b3 b4 b5 b6 b7 b8
  simp only [] at b1 b2 b3 b4 b5 b6 b7 b8
  obtain ⟨r1, r2, r3, r4, t, sorted, ht, hsort, hp, hn, hget, hpos, hph⟩ :=
    initOrder_spec E s2 hperm
  obtain ⟨k1, k2, k3, k4, k5, k6⟩ := initOrder_keeps E s2
  have hmodel : ∀ v, 1 ≤ v → v ≤ s0.vc → 0 < SCORE s0 v →
      s2.assigned v = true ∧ s2.truthVal v = Decidable.decide (0 < ACTIVITY s0 v 1) := by
    intro v h1 h2 h3
    obtain ⟨hfree, hz⟩ := hpure v h1 h2 h3
    have hmem : v ∈ List.range' 1 s0.vc := List.mem_range'_1.2 ⟨h1, by omega⟩
    have h8 := b8 v hmem hfree
    simp only [ACTIVITY] at h8
    have hsum : 0 < s0.activity (v * 2 + 0) + s0.activity (v * 2 + 1) := by
      rw [SCORE_eq] at h3
      by_contra hcon
      have : s0.activity (v * 2 + 0) + s0.activity (v * 2 + 1) = 0 := by omega
      rw [this] at h3
      simp at h3
    simp only [ACTIVITY] at hz ⊢
    rcases hz with hz | hz
    · have := h8.1 hz (by omega)
      refine ⟨this.1, ?_⟩
      rw [this.2]; simp [hz]
    · have hp1 : 0 < s0.activity (v * 2 + 1) := by omega
      have := h8.2 hz hp1
      refine ⟨this.1, ?_⟩
      rw [this.2]; simp [hp1]
  have hF : (List.range' 1 s2.vc).filter (eligible s2.assigned s2.activity) = [] := by
    rw [List.filter_eq_nil_iff]
    intro v hv
    rw [b6] at hv
    obtain ⟨h1, h2⟩ := List.mem_range'_1.1 hv
    rw [eligible_iff, b2]
    rintro ⟨hfree, hsc⟩
    have := (hmodel v h1 (by omega) (by rw [SCORE_eq]; exact hsc)).1
    rw [this] at hfree
    simp at hfree
  have hnv : (initOrder E s2).nVars = 0 := by
    rw [hn]
    rw [hF] at hp
    rw [hp.eq_nil]; rfl
  have hnc : (initOrder E s2).nextClause = -1 := by
    rw [k6, b3, hcl]; simp
  refine ⟨?_, hnv, ?_, by rw [k4, b4]; exact hdec, by rw [k5, b1]; exact hconf⟩
  · intro v h1 h2 h3
    rw [r1, k1]
    exact hmodel v h1 h2 h3
  · intro fuel hver
    have hl : (initOrder E s2).currentDLevel ≠ 0 := by
      rw [k3, b5]; exact hlev
    have hsel : selectLiteral (initOrder E s2) = some (0, initOrder E s2) := by
      simp [selectLiteral, selectVar, hnc, hnv, scanClauses, scanOrder]
    simp only [run, hl, if_false, runLoop, hsel, if_true, runFinish, hver]

theorem pureBase_pure : ∀ v, 1 ≤ v → v ≤ pureBase.vc → 0 < SCORE pureBase v →
    pureBase.assigned v = false ∧ (ACTIVITY pureBase v 1 = 0 ∨ ACTIVITY pureBase v 0 = 0) := by
  intro v h1 h2 _
  have h3 : v ≤ 4 := h2
  interval_cases v <;> decide

/-- The one clause `(1 ∨ 2 ∨ ¬3)` over four variables: the bootstrap sets `1`,
`2` and `¬3`, leaves the order empty, and `run` returns true without a
decision. -/
theorem pure_bootstrap_witness :
    pureBase.currentDLevel ≠ 0 ∧
    (pureBase.nDecisions = 0 ∧ pureBase.nConflicts = 0 ∧ pureBase.clauses = []) ∧
    (∀ v, 1 ≤ v → v ≤ pureBase.vc → 0 < SCORE pureBase v →
      pureBase.assigned v = false ∧
      (ACTIVITY pureBase v 1 = 0 ∨ ACTIVITY pureBase v 0 = 0)) ∧
    (∀ (t : State Unit) (lit : Int), t.nConflicts = 0 → FREE t lit = true →
      ACTIVITY t (VAR lit) (if SIGN (NEG lit) then 1 else 0) = 0 →
      plainEngine.assertLiteral t lit none = (true, setLiteral t lit none)) ∧
    (∀ (t : State Unit) (lit : Int), t.nConflicts = 0 →
      (setLiteral t lit none).nConflicts = 0) ∧
    (∀ cmp l, (plainEngine.sort cmp l).Perm l) ∧
    verifySolution (SatSolver plainEngine pureBase)
      = some (true, SatSolver plainEngine pureBase) ∧
    ((∀ v, 1 ≤ v → v ≤ pureBase.vc → 0 < SCORE pureBase v →
        (SatSolver plainEngine pureBase).assigned v = true ∧
        (SatSolver plainEngine pureBase).truthVal v
          = Decidable.decide (0 < ACTIVITY pureBase v 1)) ∧
      (SatSolver plainEngine pureBase).nVars = 0 ∧
      (∀ fuel, verifySolution (SatSolver plainEngine pureBase)
          = some (true, SatSolver plainEngine pureBase) →
        run plainEngine (fuel + 1) (SatSolver plainEngine pureBase)
          = some (Outcome.ret true (SatSolver plainEngine pureBase))) ∧
      (SatSolver plainEngine pureBase).nDecisions = 0 ∧
      (SatSolver plainEngine pureBase).nConflicts = 0) :=
  ⟨by decide, ⟨rfl, rfl, rfl⟩, pureBase_pure, fun _ _ _ _ _ => rfl, fun _ _ h => h,
    plainEngine_sort_perm, rfl,
    pure_bootstrap plainEngine pureBase (fun t => t.nConflicts = 0) (by decide)
      ⟨rfl, rfl, rfl⟩ pureBase_pure rfl (fun _ _ h => h) (fun _ _ _ _ _ => rfl)
      plainEngine_sort_perm⟩

/-! ## Phase saving and the order cursor in `backtrack` -/

theorem backtrackPop_heur (s : State κ) (lit : Int) (below : List Int) :
    (backtrackPop s lit below).phase =
      (if s.dLevel (VAR lit) < s.currentDLevel
        then Function.update s.phase (VAR lit) (s.truthVal (VAR lit)) else s.phase) ∧
    (backtrackPop s lit below).nextVar = min s.nextVar (s.varPosition (VAR lit)) ∧
    (backtrackPop s lit below).currentDLevel = s.currentDLevel ∧
    (backtrackPop s lit below).varPosition = s.varPosition ∧
    backtrackPop s lit below =
      { s with phase := (backtrackPop s lit below).phase
               assigned := (backtrackPop s lit below).assigned
               nextVar := (backtrackPop s lit below).nextVar
               trail := (backtrackPop s lit below).trail } := by
  unfold backtrackPop
  by_cases h1 : s.dLevel (VAR lit) < s.currentDLevel <;>
    by_cases h2 : s.varPosition (VAR lit) < s.nextVar <;>
    simp [h1, h2] <;> omega

theorem backtrackLoop_heur (L D : Nat) (lev pos : Nat → Nat) (tv : Nat → Bool) :
    ∀ (tr : List Int) (s : State κ), s.dLevel = lev → s.truthVal = tv →
      s.varPosition = pos → s.currentDLevel = D →
      (∃ l ∈ tr, lev (VAR l) ≤ L) →
      ∃ s', backtrackLoop L tr s = some s' ∧
        (∀ v, s'.phase v =
          if (tr.takeWhile (fun l => Decidable.decide (lev (VAR l) > L))).any
              (fun l => VAR l == v) && Decidable.decide (lev v < D)
          then tv v else s.phase v) ∧
        s'.nextVar = ((tr.takeWhile (fun l => Decidable.decide (lev (VAR l) > L))).map
          (fun l => pos (VAR l))).foldl min s.nextVar ∧
        s' = { s with phase := s'.phase, assigned := s'.assigned, nextVar := s'.nextVar
                      trail := s'.trail, currentDLevel := L } := by
  intro tr
  induction tr with
  | nil => intro s _ _ _ _ h; simp at h
  | cons lit below ih =>
    intro s hlev htv hpos hD hex
    by_cases hp : lev (VAR lit) > L
    · have hex2 : ∃ l ∈ below, lev (VAR l) ≤ L := by
        obtain ⟨l, hl, hle⟩ := hex
        rcases List.mem_cons.1 hl with rfl | hl
        · omega
        · exact ⟨l, hl, hle⟩
      obtain ⟨_, _, hf3, hf4, _⟩ := backtrackPop_frame s lit below
      obtain ⟨g1, g2, g3, g4, g5⟩ := backtrackPop_heur s lit below
      obtain ⟨s', hrun, hph, hnv, hfr⟩ :=
        ih (backtrackPop s lit below) (by rw [hf4, hlev]) (by rw [hf3, htv])
          (by rw [g4, hpos]) (by rw [g3, hD]) hex2
      refine ⟨s', ?_, ?_, ?_, ?_⟩
      · simp only [backtrackLoop, hlev, hp, if_true, hrun]
      · intro v
        rw [hph v, g1, hlev, hD, htv]
        simp only [List.takeWhile_cons, hp, decide_True, if_true, List.any_cons]
        by_cases hv : VAR lit = v
        · subst hv
          by_cases hd : lev (VAR lit) < D
          · simp [hd]
          · simp [hd]
        · have hv2 : (VAR lit == v) = false := by simpa using hv
          simp only [hv2, Bool.false_or]
          by_cases hd : lev (VAR lit) < D
          · simp only [hd, if_true, Function.update_noteq (Ne.symm hv)]
          · simp only [hd, if_false]
      · rw [hnv, g2, hpos]
        simp only [List.takeWhile_cons, hp, decide_True, if_true, List.map_cons,
          List.foldl_cons]
      · rw [g5] at hfr
        exact hfr
    · refine ⟨{ s with currentDLevel := L }, ?_, ?_, ?_, rfl⟩
      · simp only [backtrackLoop, hlev, hp, if_false]
      · intro v
        simp [List.takeWhile_cons, hp]
      · simp [List.takeWhile_cons, hp]
/-- Claim C14.  When some entry of the trail has level at most `L`,
`backtrack(L)` called at decision level `D = currentDLevel` returns, and with
`popped` the maximal top run of the trail above `L`: the phase of a popped
variable whose level is strictly below `D` becomes its truth value, the phase of
a popped variable whose level equals `D` is as before, and so is the phase of
every variable that is not popped. -/
theorem backtrack_phase (s : State κ) (L : Nat)
    (h : ∃ l ∈ s.trail, s.dLevel (VAR l) ≤ L) :
    ∃ s' : State κ,
      backtrack s L = some s' ∧
      (∀ l ∈ s.trail.takeWhile (fun l => Decidable.decide (s.dLevel (VAR l) > L)),
        s.dLevel (VAR l) < s.currentDLevel → s'.phase (VAR l) = s.truthVal (VAR l)) ∧
      (∀ l ∈ s.trail.takeWhile (fun l => Decidable.decide (s.dLevel (VAR l) > L)),
        s.dLevel (VAR l) = s.currentDLevel → s'.phase (VAR l) = s.phase (VAR l)) ∧
      (∀ v, (∀ l ∈ s.trail.takeWhile (fun l => Decidable.decide (s.dLevel (VAR l) > L)),
        VAR l ≠ v) → s'.phase v = s.phase v) := by
  obtain ⟨s', hrun, hph, _, _⟩ :=
    backtrackLoop_heur L s.currentDLevel s.dLevel s.varPosition s.truthVal s.trail s
      rfl rfl rfl rfl h
  refine ⟨s', hrun, ?_, ?_, ?_⟩
  · intro l hl hlt
    rw [hph (VAR l)]
    have : (s.trail.takeWhile (fun l => Decidable.decide (s.dLevel (VAR l) > L))).any
        (fun l' => VAR l' == VAR l) = true := by
      rw [List.any_eq_true]; exact ⟨l, hl, by simp⟩
    simp [this, hlt]
  · intro l _ heq
    rw [hph (VAR l)]
    have : ¬ s.dLevel (VAR l) < s.currentDLevel := by omega
    simp [this]
  · intro v hv
    rw [hph v]
    have : (s.trail.takeWhile (fun l => Decidable.decide (s.dLevel (VAR l) > L))).any
        (fun l' => VAR l' == v) = false := by
      rw [List.any_eq_false]
      intro l hl
      simpa using hv l hl
    simp [this]

/-- Backjumping from level 3 to level 1: the variable set at level 2 gets its
value as phase, those set at level 3 keep theirs. -/
theorem backtrack_phase_witness :
    (∃ l ∈ trailDemo.trail, trailDemo.dLevel (VAR l) ≤ 1) ∧
    ∃ s' : State Unit,
      backtrack trailDemo 1 = some s' ∧
      (∀ l ∈ trailDemo.trail.takeWhile
          (fun l => Decidable.decide (trailDemo.dLevel (VAR l) > 1)),
        trailDemo.dLevel (VAR l) < trailDemo.currentDLevel →
        s'.phase (VAR l) = trailDemo.truthVal (VAR l)) ∧
      (∀ l ∈ trailDemo.trail.takeWhile
          (fun l => Decidable.decide (trailDemo.dLevel (VAR l) > 1)),
        trailDemo.dLevel (VAR l) = trailDemo.currentDLevel →
        s'.phase (VAR l) = trailDemo.phase (VAR l)) ∧
      (∀ v, (∀ l ∈ trailDemo.trail.takeWhile
          (fun l => Decidable.decide (trailDemo.dLevel (VAR l) > 1)),
        VAR l ≠ v) → s'.phase v = trailDemo.phase v) :=
  ⟨⟨1, by decide, by decide⟩, backtrack_phase trailDemo 1 ⟨1, by decide, by decide⟩⟩

theorem scanTrace_spec (last : Int) :
    ∀ (n : Nat) (s : State κ),
      (scanTrace s last n).length ≤ n ∧
      (∀ i ∈ scanTrace s last n, last ≤ i ∧ i < last + n) ∧
      (scanTrace s last n).Pairwise (fun a b => b < a) := by
  intro n
  induction n with
  | zero => intro s; simp [scanTrace]
  | succ n ih =>
    intro s
    simp only [scanTrace]
    cases hc : s.clauses[(last + (n : Int)).toNat]? with
    | none => simp
    | some c =>
      simp only []
      cases hsat : c.any (SET s) with
      | false => simp
      | true =>
        obtain ⟨h1, h2, h3⟩ := ih { s with nextClause := last + (n : Int) }
        simp only [if_true, List.length_cons, List.mem_cons, List.pairwise_cons]
        refine ⟨by omega, ?_, ?_, h3⟩
        · rintro i (rfl | hi)
          · constructor <;> push_cast <;> omega
          · have := h2 i hi
            constructor <;> push_cast <;> omega
        · intro b hb
          have := h2 b hb
          omega

theorem scanTrace_of_fallthrough (last : Int) :
    ∀ (n : Nat) (s s1 : State κ), scanClauses s last n = some (none, s1) →
      (scanTrace s last n).length = n := by
  intro n
  induction n with
  | zero => intro s s1 _; simp [scanTrace]
  | succ n ih =>
    intro s s1 h
    simp only [scanClauses] at h
    simp only [scanTrace]
    cases hc : s.clauses[(last + (n : Int)).toNat]? with
    | none => simp [hc] at h
    | some c =>
      simp only [hc] at h ⊢
      cases hsat : c.any (SET s) with
      | false => simp [hsat] at h
      | true =>
        simp only [hsat, if_true] at h ⊢
        simp [ih _ s1 h]

/-- In every state one call of `selectLiteral` examines at most 257 learned
clauses, at strictly decreasing indices. -/
theorem examined_le (s : State κ) :
    (examined s).length ≤ 257 ∧ (examined s).Pairwise (fun a b => b < a) := by
  unfold examined
  simp only []
  obtain ⟨h1, _, h3⟩ := scanTrace_spec (if s.nextClause > 256 then s.nextClause - 256 else 0)
    (s.nextClause - (if s.nextClause > 256 then s.nextClause - 256 else 0) + 1).toNat s
  refine ⟨le_trans h1 ?_, h3⟩
  split_ifs <;> omega

set_option maxRecDepth 100000 in
/-- Claim C11, the code at the failing input.  With three hundred satisfied
learned clauses and the cursor on the top one, one call of `selectLiteral`
examines 257 clauses, those of indices 299 down to 43, before it falls back to
the order and returns 0. -/
theorem selectLiteral_scan_257 :
    (examined scanDemo).length = 257 ∧
    (examined scanDemo).head? = some 299 ∧
    (examined scanDemo).getLast? = some 43 ∧
    (selectLiteral scanDemo).map (fun r => (r.1, r.2.nextClause)) = some (0, 43) := by
  refine ⟨by decide, by decide, by decide, by decide⟩

/-! ## The loops of `run`: levels and restarts -/

theorem runLoop_step (E : Engine κ) (fuel : Nat) (c : Bool) (s : State κ) :
    runLoop E (fuel + 1) c s =
      match runStep E c s with
      | none => none
      | some (Sum.inl o) => some o
      | some (Sum.inr (c', s')) => runLoop E fuel c' s' := by
  cases c with
  | false =>
    simp only [runLoop, runStep]
    cases hsel : selectLiteral s with
    | none => rfl
    | some r =>
      obtain ⟨lit, s1⟩ := r
      simp only []
      by_cases hl : lit = 0
      · simp only [hl, if_true]
        cases runFinish s1 <;> rfl
      · simp only [hl, if_false]
  | true =>
    simp only [runLoop, runStep]
    by_cases ha : s.aLevel = 0
    · simp only [ha, if_true]
    · simp only [ha, if_false]
      cases hb : conflictBody E s with
      | none => rfl
      | some r =>
        obtain ⟨brk, s4⟩ := r
        cases brk <;> rfl

theorem backtrackLoop_frame (L : Nat) :
    ∀ (tr : List Int) (s s' : State κ), backtrackLoop L tr s = some s' →
      s' = { s with phase := s'.phase, assigned := s'.assigned, nextVar := s'.nextVar
                    trail := s'.trail, currentDLevel := L } ∧
      ∀ v, s'.assigned v = true → s.assigned v = true := by
  intro tr
  induction tr with
  | nil => intro s s' h; simp [backtrackLoop] at h
  | cons lit below ih =>
    intro s s' h
    simp only [backtrackLoop] at h
    by_cases hp : s.dLevel (VAR lit) > L
    · simp only [hp, if_true] at h
      obtain ⟨h1, h2⟩ := ih _ s' h
      obtain ⟨_, _, _, _, g5⟩ := backtrackPop_heur s lit below
      obtain ⟨_, f2, _⟩ := backtrackPop_frame s lit below
      refine ⟨?_, ?_⟩
      · rw [g5] at h1; exact h1
      · intro v hv
        have := h2 v hv
        rw [f2] at this
        by_cases hv2 : v = VAR lit
        · subst hv2; simp at this
        · rwa [Function.update_noteq hv2] at this
    · simp only [hp, if_false, Option.some.injEq] at h
      subst h
      exact ⟨rfl, fun v hv => hv⟩

theorem selectLiteral_frame (s : State κ) (lit : Int) (s1 : State κ)
    (h : selectLiteral s = some (lit, s1)) :
    s1 = { s with nextClause := s1.nextClause, nextVar := s1.nextVar } := by
  unfold selectLiteral at h
  cases hsv : selectVar s with
  | none => simp [hsv] at h
  | some r =>
    obtain ⟨ox, s2⟩ := r
    have hf := selectVar_frame s ox s2 hsv
    cases ox with
    | none =>
      simp only [hsv, Option.some.injEq, Prod.mk.injEq] at h
      rw [← h.2]; exact hf
    | some x =>
      simp only [hsv, Option.some.injEq, Prod.mk.injEq] at h
      rw [← h.2]; exact hf
theorem conflictBody_eq (E : Engine κ) (s : State κ) :
    ∃ s2 : State κ,
      s2 = { s with activity := s2.activity, nextDecay := s2.nextDecay
                    nextClause := s2.nextClause } ∧
      conflictBody E s =
        if s.nConflicts = s.nextRestart then
          match backtrack
            { s2 with nRestarts := (s.nRestarts + 1) % 2 ^ 32
                      rest := (E.lubyNext s.rest).2
                      nextRestart :=
                        (s.nextRestart + (E.lubyNext s.rest).1 * s.lubyUnit) % 2 ^ 32 } 1 with
          | none => none
          | some s4 => some (Decidable.decide (s4.currentDLevel ≠ s4.aLevel), s4)
        else
          match backtrack s2 s.aLevel with
          | none => none
          | some s4 => some (false, s4) := by
  by_cases hdec : s.nConflicts = s.nextDecay
  · refine ⟨{ scoreDecay { s with nextDecay := (s.nextDecay + HALFLIFE) % 2 ^ 32 } with
        nextClause := ((scoreDecay { s with nextDecay := (s.nextDecay + HALFLIFE) % 2 ^ 32
          }).clauses.length : Int) - 1 }, rfl, ?_⟩
    unfold conflictBody
    simp only [hdec, if_true]
    rfl
  · refine ⟨{ s with nextClause := (s.clauses.length : Int) - 1 }, rfl, ?_⟩
    unfold conflictBody
    simp only [hdec, if_false]
theorem conflictBody_level (E : Engine κ) (s : State κ) (brk : Bool) (s4 : State κ)
    (h : conflictBody E s = some (brk, s4)) :
    (s4.currentDLevel = 1 ∨ s4.currentDLevel = s.aLevel) ∧ s4.aLevel = s.aLevel := by
  obtain ⟨s2, hs2, heq⟩ := conflictBody_eq E s
  rw [heq] at h
  have ha2 : s2.aLevel = s.aLevel := by rw [hs2]
  split at h
  · split at h
    · simp at h
    · rename_i s5 hb
      simp only [Option.some.injEq, Prod.mk.injEq] at h
      obtain ⟨_, rfl⟩ := h
      obtain ⟨hf, _⟩ := backtrackLoop_frame 1 _ _ _ hb
      refine ⟨Or.inl (by rw [hf]), ?_⟩
      rw [hf]; exact ha2
  · split at h
    · simp at h
    · rename_i s5 hb
      simp only [Option.some.injEq, Prod.mk.injEq] at h
      obtain ⟨_, rfl⟩ := h
      obtain ⟨hf, _⟩ := backtrackLoop_frame s.aLevel _ _ _ hb
      refine ⟨Or.inr (by rw [hf]), ?_⟩
      rw [hf]; exact ha2

theorem runStep_level (E : Engine κ)
    (hE : ∀ s lit ante, (E.assertLiteral s lit ante).2.currentDLevel = s.currentDLevel)
    (c : Bool) (s : State κ) (c' : Bool) (s' : State κ)
    (h1 : 1 ≤ s.currentDLevel) (h2 : s.currentDLevel + 1 < 2 ^ 32)
    (h : runStep E c s = some (Sum.inr (c', s'))) : 1 ≤ s'.currentDLevel := by
  cases c with
  | false =>
    simp only [runStep] at h
    cases hsel : selectLiteral s with
    | none => simp [hsel] at h
    | some r =>
      obtain ⟨lit, s1⟩ := r
      simp only [hsel] at h
      have hf := selectLiteral_frame s lit s1 hsel
      have hl1 : s1.currentDLevel = s.currentDLevel := by rw [hf]
      by_cases hl : lit = 0
      · simp only [hl, if_true] at h
        cases hfin : runFinish s1 <;> simp [hfin] at h
      · simp only [hl, if_false, Option.some.injEq, Sum.inr.injEq, Prod.mk.injEq] at h
        rw [← h.2]
        unfold decide
        rw [hE]
        simp only []
        rw [hl1, Nat.mod_eq_of_lt h2]
        omega
  | true =>
    simp only [runStep] at h
    by_cases ha : s.aLevel = 0
    · simp [ha] at h
    · simp only [ha, if_false] at h
      cases hb : conflictBody E s with
      | none => simp [hb] at h
      | some r =>
        obtain ⟨brk, s4⟩ := r
        obtain ⟨hlev, _⟩ := conflictBody_level E s brk s4 hb
        have h4 : 1 ≤ s4.currentDLevel := by
          rcases hlev with hlev | hlev <;> omega
        cases brk with
        | true =>
          simp only [hb, Option.some.injEq, Sum.inr.injEq, Prod.mk.injEq] at h
          rw [← h.2]; exact h4
        | false =>
          simp only [hb, Option.some.injEq, Sum.inr.injEq, Prod.mk.injEq] at h
          rw [← h.2]
          unfold assertCL
          rw [hE]; exact h4

/-- Claim C12.  With an `assertLiteral` that leaves `currentDLevel` as it is,
and as long as the 32-bit level counter is not at its maximum when an iteration
starts: from a control point of the loops of `run` at a level of at least 1
(such as the head of the `for` loop right after the initial level check), every
control point reached is at a level of at least 1.  `decide` increments the
level; a conflict with `aLevel == 0` ends `run` with false before any backtrack;
and the state left by the backtrack of a conflict with `aLevel != 0` is at
level 1 or at level `aLevel`, hence at least 1. -/
theorem run_level_positive (E : Engine κ)
    (hE : ∀ s lit ante, (E.assertLiteral s lit ante).2.currentDLevel = s.currentDLevel) :
    (∀ (n : Nat) (c : Bool) (s : State κ) (c' : Bool) (s' : State κ),
      1 ≤ s.currentDLevel →
      (∀ k c1 s1, k < n → runReach E k (c, s) = some (c1, s1) →
        s1.currentDLevel + 1 < 2 ^ 32) →
      runReach E n (c, s) = some (c', s') → 1 ≤ s'.currentDLevel) ∧
    (∀ (s : State κ) (lit : Int),
      (decide E s lit).2.currentDLevel = (s.currentDLevel + 1) % 2 ^ 32) ∧
    (∀ s : State κ, s.aLevel = 0 →
      runStep E true s = some (Sum.inl (Outcome.ret false s))) ∧
    (∀ (s : State κ) (brk : Bool) (s4 : State κ), s.aLevel ≠ 0 →
      conflictBody E s = some (brk, s4) →
      (s4.currentDLevel = 1 ∨ s4.currentDLevel = s.aLevel) ∧ 1 ≤ s4.currentDLevel) := by
  refine ⟨?_, ?_, ?_, ?_⟩
  · intro n
    induction n with
    | zero =>
      intro c s c' s' h1 _ h
      simp only [runReach, Option.some.injEq, Prod.mk.injEq] at h
      rw [← h.2]; exact h1
    | succ n ih =>
      intro c s c' s' h1 hno h
      simp only [runReach] at h
      cases hr : runReach E n (c, s) with
      | none => simp [hr] at h
      | some x =>
        obtain ⟨c1, s1⟩ := x
        simp only [hr] at h
        have hs1 := ih c s c1 s1 h1 (fun k c2 s2 hk => hno k c2 s2 (by omega)) hr
        have hb1 := hno n c1 s1 (by omega) hr
        cases hst : runStep E c1 s1 with
        | none => simp [hst] at h
        | some y =>
          cases y with
          | inl o => simp [hst] at h
          | inr z =>
            obtain ⟨c2, s2⟩ := z
            simp only [hst, Option.some.injEq, Prod.mk.injEq] at h
            obtain ⟨rfl, rfl⟩ := h
            exact runStep_level E hE c1 s1 c2 s2 hs1 hb1 hst
  · intro s lit
    unfold decide
    rw [hE]
  · intro s ha
    simp [runStep, ha]
  · intro s brk s4 ha h
    obtain ⟨hlev, _⟩ := conflictBody_level E s brk s4 h
    refine ⟨hlev, ?_⟩
    have : 1 ≤ s.aLevel := by omega
    rcases hlev with hlev | hlev <;> omega

/-- The engine that only sets the literal leaves the level alone; two
decisions from `searchDemo` lead from level 1 to level 3. -/
theorem run_level_positive_witness :
    (∀ (s : State Unit) lit ante,
      (plainEngine.assertLiteral s lit ante).2.currentDLevel = s.currentDLevel) ∧
    ((runReach plainEngine 2 (false, searchDemo)).map (fun x => x.2.currentDLevel) = some 3) ∧
    ((∀ (n : Nat) (c : Bool) (s : State Unit) (c' : Bool) (s' : State Unit),
        1 ≤ s.currentDLevel →
        (∀ k c1 s1, k < n → runReach plainEngine k (c, s) = some (c1, s1) →
          s1.currentDLevel + 1 < 2 ^ 32) →
        runReach plainEngine n (c, s) = some (c', s') → 1 ≤ s'.currentDLevel) ∧
      (∀ (s : State Unit) (lit : Int),
        (decide plainEngine s lit).2.currentDLevel = (s.currentDLevel + 1) % 2 ^ 32) ∧
      (∀ s : State Unit, s.aLevel = 0 →
        runStep plainEngine true s = some (Sum.inl (Outcome.ret false s))) ∧
      (∀ (s : State Unit) (brk : Bool) (s4 : State Unit), s.aLevel ≠ 0 →
        conflictBody plainEngine s = some (brk, s4) →
        (s4.currentDLevel = 1 ∨ s4.currentDLevel = s.aLevel) ∧ 1 ≤ s4.currentDLevel)) :=
  ⟨fun _ _ _ => rfl, by decide, run_level_positive plainEngine (fun _ _ _ => rfl)⟩
/-- The states of `runReach` are those that `runLoop` passes through: after the
`n` iterations that lead to `(c', s')`, `runLoop` continues from there. -/
theorem runLoop_reach (E : Engine κ) :
    ∀ (n fuel : Nat) (c : Bool) (s : State κ) (c' : Bool) (s' : State κ),
      runReach E n (c, s) = some (c', s') →
      runLoop E (n + fuel) c s = runLoop E fuel c' s' := by
  intro n
  induction n with
  | zero =>
    intro fuel c s c' s' h
    simp only [runReach, Option.some.injEq, Prod.mk.injEq] at h
    obtain ⟨rfl, rfl⟩ := h
    simp
  | succ n ih =>
    intro fuel c s c' s' h
    simp only [runReach] at h
    cases hr : runReach E n (c, s) with
    | none => simp [hr] at h
    | some x =>
      obtain ⟨c1, s1⟩ := x
      simp only [hr] at h
      cases hst : runStep E c1 s1 with
      | none => simp [hst] at h
      | some y =>
        cases y with
        | inl o => simp [hst] at h
        | inr z =>
          obtain ⟨c2, s2⟩ := z
          simp only [hst, Option.some.injEq, Prod.mk.injEq] at h
          obtain ⟨rfl, rfl⟩ := h
          have e : n + 1 + fuel = n + (fuel + 1) := by omega
          rw [e, ih (fuel + 1) c s c1 s1 hr, runLoop_step, hst]

theorem bestStep_fold (s : State κ) :
    ∀ (c : List Int) (acc : Nat × Int),
      (c.foldl (bestStep s) acc = acc ∧
        ∀ l ∈ c, FREE s l = true → toInt32 (SCORE s (VAR l)) ≤ acc.2) ∨
      (∃ pre l post, c = pre ++ l :: post ∧ FREE s l = true ∧
        c.foldl (bestStep s) acc = (VAR l, toInt32 (SCORE s (VAR l))) ∧
        acc.2 < toInt32 (SCORE s (VAR l)) ∧
        (∀ l' ∈ pre, FREE s l' = true →
          toInt32 (SCORE s (VAR l')) < toInt32 (SCORE s (VAR l))) ∧
        (∀ l' ∈ post, FREE s l' = true →
          toInt32 (SCORE s (VAR l')) ≤ toInt32 (SCORE s (VAR l)))) := by
  intro c
  induction c with
  | nil => intro acc; left; simp
  | cons p c ih =>
    intro acc
    simp only [List.foldl_cons]
    by_cases hp : (FREE s p && Decidable.decide (toInt32 (SCORE s (VAR p)) > acc.2)) = true
    · have e : bestStep s acc p = (VAR p, toInt32 (SCORE s (VAR p))) := by
        unfold bestStep; rw [if_pos hp]
      have hp2 : FREE s p = true ∧ toInt32 (SCORE s (VAR p)) > acc.2 := by
        simpa using hp
      rw [e]
      rcases ih (VAR p, toInt32 (SCORE s (VAR p))) with ⟨h1, h2⟩ | ⟨pre, l, post, h1, h2, h3, h4, h5, h6⟩
      · right
        exact ⟨[], p, c, rfl, hp2.1, h1, hp2.2, by simp, h2⟩
      · right
        refine ⟨p :: pre, l, post, by rw [h1]; rfl, h2, h3, ?_, ?_, h6⟩
        · have := hp2.2; simp only [] at h4; omega
        · intro l' hl' hf
          rcases List.mem_cons.1 hl' with rfl | hl'
          · exact h4
          · exact h5 l' hl' hf
    · have e : bestStep s acc p = acc := by
        unfold bestStep; rw [if_neg hp]
      have hp2 : FREE s p = true → toInt32 (SCORE s (VAR p)) ≤ acc.2 := by
        intro hf
        have : ¬ toInt32 (SCORE s (VAR p)) > acc.2 := by
          intro hgt; exact hp (by simp [hf, hgt])
        omega
      rw [e]
      rcases ih acc with ⟨h1, h2⟩ | ⟨pre, l, post, h1, h2, h3, h4, h5, h6⟩
      · left
        refine ⟨h1, ?_⟩
        intro l hl hf
        rcases List.mem_cons.1 hl with rfl | hl
        · exact hp2 hf
        · exact h2 l hl hf
      · right
        refine ⟨p :: pre, l, post, by rw [h1]; rfl, h2, h3, h4, ?_, h6⟩
        intro l' hl' hf
        rcases List.mem_cons.1 hl' with rfl | hl'
        · have := hp2 hf; omega
        · exact h5 l' hl' hf

theorem toInt32_small (u : Nat) (h : u < 2 ^ 31) : toInt32 u = (u : Int) := by
  unfold toInt32
  have e : u % 2 ^ 32 = u := Nat.mod_eq_of_lt (by omega)
  rw [e, if_pos h]

/-- The variable picked in a clause is 0 or the variable of one of its free
literals. -/
theorem bestVar_zero_or_free (s : State κ) (c : List Int) :
    bestVar s c = 0 ∨ ∃ l ∈ c, FREE s l = true ∧ bestVar s c = VAR l := by
  unfold bestVar
  rcases bestStep_fold s c (0, -1) with ⟨h1, _⟩ | ⟨pre, l, post, h1, h2, h3, _⟩
  · left; rw [h1]
  · right
    exact ⟨l, by rw [h1]; simp, h2, by rw [h3]⟩

/-- With the scores of its free literals below `2^31`, the variable picked in a
clause that has a free literal is that of its earliest free literal of maximal
score. -/
theorem bestVar_max (s : State κ) (c : List Int)
    (hfree : ∃ l ∈ c, FREE s l = true)
    (hsmall : ∀ l ∈ c, FREE s l = true →
      ACTIVITY s (VAR l) 0 + ACTIVITY s (VAR l) 1 < 2 ^ 31) :
    ∃ pre l post, c = pre ++ l :: post ∧ FREE s l = true ∧ bestVar s c = VAR l ∧
      (∀ l' ∈ pre, FREE s l' = true →
        ACTIVITY s (VAR l') 0 + ACTIVITY s (VAR l') 1
          < ACTIVITY s (VAR l) 0 + ACTIVITY s (VAR l) 1) ∧
      (∀ l' ∈ post, FREE s l' = true →
        ACTIVITY s (VAR l') 0 + ACTIVITY s (VAR l') 1
          ≤ ACTIVITY s (VAR l) 0 + ACTIVITY s (VAR l) 1) := by
  have hsc : ∀ l ∈ c, FREE s l = true →
      toInt32 (SCORE s (VAR l))
        = ((ACTIVITY s (VAR l) 0 + ACTIVITY s (VAR l) 1 : Nat) : Int) := by
    intro l hl hf
    have hlt := hsmall l hl hf
    have e : SCORE s (VAR l) = ACTIVITY s (VAR l) 0 + ACTIVITY s (VAR l) 1 := by
      unfold SCORE; exact Nat.mod_eq_of_lt (by omega)
    rw [e, toInt32_small _ hlt]
  rcases bestStep_fold s c (0, -1) with ⟨_, h2⟩ | ⟨pre, l, post, h1, h2, h3, _, h5, h6⟩
  · obtain ⟨l, hl, hf⟩ := hfree
    have := h2 l hl hf
    rw [hsc l hl hf] at this
    simp only [] at this
    omega
  · have hl : l ∈ c := by rw [h1]; simp
    refine ⟨pre, l, post, h1, h2, by unfold bestVar; rw [h3], ?_, ?_⟩
    · intro l' hl' hf
      have hl'c : l' ∈ c := by rw [h1]; simp [hl']
      have := h5 l' hl' hf
      rw [hsc l hl h2, hsc l' hl'c hf] at this
      omega
    · intro l' hl' hf
      have hl'c : l' ∈ c := by rw [h1]; simp [hl']
      have := h6 l' hl' hf
      rw [hsc l hl h2, hsc l' hl'c hf] at this
      omega

theorem VAR_rsatPhase (s : State κ) (x : Nat) : VAR (rsatPhase s x) = x := by
  unfold rsatPhase VAR
  simp only []
  split_ifs <;> simp
theorem scanClauses_first_unsat (last : Int) (k : Nat) (c : List Int) :
    ∀ (n : Nat) (s : State κ), k < n →
      (∀ m, k < m → m < n →
        ∃ c', s.clauses[(last + (m : Int)).toNat]? = some c' ∧ c'.any (SET s) = true) →
      s.clauses[(last + (k : Int)).toNat]? = some c → c.any (SET s) = false →
      scanClauses s last n
        = some (some (bestVar s c), { s with nextClause := last + (k : Int) }) := by
  intro n
  induction n with
  | zero => intro s hk; omega
  | succ n ih =>
    intro s hk hsat hc hun
    by_cases hkn : k = n
    · subst hkn
      simp only [scanClauses, hc, hun, Bool.false_eq_true, if_false]
    · obtain ⟨c', hc', hs'⟩ := hsat n (by omega) (by omega)
      simp only [scanClauses, hc', hs', if_true]
      exact ih { s with nextClause := last + (n : Int) } (by omega)
        (fun m h1 h2 => hsat m h1 (by omega)) hc hun

theorem scanClauses_all_sat (last : Int) :
    ∀ (n : Nat) (s : State κ),
      (∀ m, m < n →
        ∃ c', s.clauses[(last + (m : Int)).toNat]? = some c' ∧ c'.any (SET s) = true) →
      scanClauses s last n
        = some (none, if n = 0 then s else { s with nextClause := last }) := by
  intro n
  induction n with
  | zero => intro s _; rfl
  | succ n ih =>
    intro s hsat
    obtain ⟨c', hc', hs'⟩ := hsat n (by omega)
    simp only [scanClauses, hc', hs', if_true]
    rw [ih { s with nextClause := last + (n : Int) } (fun m h => hsat m (by omega))]
    by_cases hn : n = 0
    · subst hn; simp
    · simp [hn]

theorem scanOrder_first (s : State κ) (j : Nat) (hj : j < s.nVars)
    (hfree : s.assigned (s.varOrder j) = false) :
    ∀ n, n ≤ s.nVars → s.nVars - n ≤ j →
      (∀ i, s.nVars - n ≤ i → i < j → s.assigned (s.varOrder i) = true) →
      scanOrder s n = some j := by
  intro n
  induction n with
  | zero => intro _ h _; omega
  | succ n ih =>
    intro hn hlo hall
    by_cases hji : j = s.nVars - (n + 1)
    · simp only [scanOrder, ← hji, hfree, Bool.not_false, if_true]
    · have hi := hall (s.nVars - (n + 1)) (le_refl _) (by omega)
      simp only [scanOrder, hi, Bool.not_true, Bool.false_eq_true, if_false]
      exact ih (by omega) (by omega) (fun i h1 h2 => hall i (by omega) h2)

theorem scanClauses_total (last : Int) (hlast : 0 ≤ last) :
    ∀ (n : Nat) (s : State κ), last + (n : Int) ≤ (s.clauses.length : Int) →
      ∃ r s1, scanClauses s last n = some (r, s1) ∧
        (s1.nextClause = s.nextClause ∨
          (last ≤ s1.nextClause ∧ s1.nextClause < last + (n : Int))) ∧
        (∀ x, r = some x → ∃ c ∈ s.clauses, x = bestVar s c) := by
  intro n
  induction n with
  | zero =>
    intro s _
    exact ⟨none, s, rfl, Or.inl rfl, fun x hx => by simp at hx⟩
  | succ n ih =>
    intro s hlen
    have hidx : (last + (n : Int)).toNat < s.clauses.length := by
      push_cast at hlen; omega
    have hget : s.clauses[(last + (n : Int)).toNat]?
        = some (s.clauses[(last + (n : Int)).toNat]) := List.getElem?_eq_getElem hidx
    have hmem : s.clauses[(last + (n : Int)).toNat] ∈ s.clauses := List.getElem_mem _
    simp only [scanClauses, hget]
    cases hsat : (s.clauses[(last + (n : Int)).toNat]).any (SET s) with
    | true =>
      simp only [if_true]
      obtain ⟨r, s1, h1, h2, h3⟩ := ih { s with nextClause := last + (n : Int) }
        (by push_cast at hlen ⊢; omega)
      refine ⟨r, s1, h1, ?_, h3⟩
      right
      rcases h2 with h2 | h2
      · rw [h2]; simp only []; push_cast; omega
      · push_cast; omega
    | false =>
      simp only [Bool.false_eq_true, if_false]
      refine ⟨_, _, rfl, Or.inr ?_, ?_⟩
      · simp only []; push_cast; omega
      · intro x hx
        simp only [Option.some.injEq] at hx
        exact ⟨_, hmem, hx.symm⟩
/-- Claim C16, as stated, fails.  The only learned clause `(1 ∨ 2)` has no
literal set and both literals free; variable 1 has the larger score, `2^31`
against 1, and the literal returned is one of variable 2: the score is compared
as an `int`, where `2^31` is negative. -/
theorem selectLiteral_best_counterexample :
    bigScoreDemo.clauses[bigScoreDemo.nextClause.toNat]? = some [1, 2] ∧
    (∀ l ∈ [(1 : Int), 2], SET bigScoreDemo l = false ∧ FREE bigScoreDemo l = true) ∧
    ACTIVITY bigScoreDemo 2 0 + ACTIVITY bigScoreDemo 2 1
      < ACTIVITY bigScoreDemo 1 0 + ACTIVITY bigScoreDemo 1 1 ∧
    SCORE bigScoreDemo 2 < SCORE bigScoreDemo 1 ∧
    (selectLiteral bigScoreDemo).map (fun r => (VAR r.1, r.2.nextClause)) = some (2, 0) := by
  refine ⟨by decide, by decide, by decide, by decide, by decide⟩

/-- Claim C16, amended.  Let the clause `c` at index `j` of the scan window be
the first the downward scan from `nextClause` meets without a literal set true,
let it have a free literal, and let the score of each of its free literals (the
sum of the two counters of its variable) be below `2^31`.  Then `selectLiteral`
returns a literal whose variable is that of a free literal `l` of `c` of maximal
score among the free literals of `c`, the earliest such, in the state that
differs from the one before in `nextClause == j` only. -/
theorem selectLiteral_best (s : State κ) (j : Int) (c : List Int)
    (hj1 : (if s.nextClause > 256 then s.nextClause - 256 else 0) ≤ j)
    (hj2 : j ≤ s.nextClause)
    (hsat : ∀ i : Int, j < i → i ≤ s.nextClause →
      ∃ c', s.clauses[i.toNat]? = some c' ∧ c'.any (SET s) = true)
    (hc : s.clauses[j.toNat]? = some c)
    (hun : ∀ l ∈ c, SET s l = false)
    (hfree : ∃ l ∈ c, FREE s l = true)
    (hsmall : ∀ l ∈ c, FREE s l = true →
      ACTIVITY s (VAR l) 0 + ACTIVITY s (VAR l) 1 < 2 ^ 31) :
    ∃ pre l post lit, c = pre ++ l :: post ∧ FREE s l = true ∧
      (∀ l' ∈ pre, FREE s l' = true →
        ACTIVITY s (VAR l') 0 + ACTIVITY s (VAR l') 1
          < ACTIVITY s (VAR l) 0 + ACTIVITY s (VAR l) 1) ∧
      (∀ l' ∈ post, FREE s l' = true →
        ACTIVITY s (VAR l') 0 + ACTIVITY s (VAR l') 1
          ≤ ACTIVITY s (VAR l) 0 + ACTIVITY s (VAR l) 1) ∧
      selectLiteral s = some (lit, { s with nextClause := j }) ∧
      VAR lit = VAR l := by
  obtain ⟨pre, l, post, h1, h2, h3, h4, h5⟩ := bestVar_max s c hfree hsmall
  have hlast : (0 : Int) ≤ if s.nextClause > 256 then s.nextClause - 256 else 0 := by
    split_ifs <;> omega
  generalize hL : (if s.nextClause > 256 then s.nextClause - 256 else 0) = last at hj1 hlast
  have hk : last + (((j - last).toNat : Nat) : Int) = j := by omega
  have hany : c.any (SET s) = false := by
    rw [List.any_eq_false]
    intro x hx; simp [hun x hx]
  have hscan := scanClauses_first_unsat last (j - last).toNat c
    (s.nextClause - last + 1).toNat s (by omega)
    (fun m hm1 hm2 => by
      have := hsat (last + (m : Int)) (by omega) (by omega)
      exact this)
    (by rw [hk]; exact hc) hany
  rw [hk] at hscan
  refine ⟨pre, l, post, rsatPhase { s with nextClause := j } (bestVar s c), h1, h2, h4, h5,
    ?_, ?_⟩
  · simp only [selectLiteral, selectVar, hL, hscan]
  · rw [VAR_rsatPhase, h3]

/-- The scan of `guidedDemo` skips the satisfied clause under the cursor; the
next clause has its literal `1` false and its literals `¬2` and `3` free, of
scores 3 and 3: the earlier one is taken. -/
theorem selectLiteral_best_witness :
    (if guidedDemo.nextClause > 256 then guidedDemo.nextClause - 256 else 0) ≤ (1 : Int) ∧
    (1 : Int) ≤ guidedDemo.nextClause ∧
    guidedDemo.clauses[(1 : Int).toNat]? = some [1, -2, 3] ∧
    (∀ l ∈ [(1 : Int), -2, 3], SET guidedDemo l = false) ∧
    (∀ i : Int, 1 < i → i ≤ guidedDemo.nextClause →
      ∃ c', guidedDemo.clauses[i.toNat]? = some c' ∧ c'.any (SET guidedDemo) = true) ∧
    (selectLiteral guidedDemo).map (fun r => (r.1, r.2.nextClause, r.2.nextVar))
      = some (-2, 1, 1) ∧
    ∃ pre l post lit, [(1 : Int), -2, 3] = pre ++ l :: post ∧ FREE guidedDemo l = true ∧
      (∀ l' ∈ pre, FREE guidedDemo l' = true →
        ACTIVITY guidedDemo (VAR l') 0 + ACTIVITY guidedDemo (VAR l') 1
          < ACTIVITY guidedDemo (VAR l) 0 + ACTIVITY guidedDemo (VAR l) 1) ∧
      (∀ l' ∈ post, FREE guidedDemo l' = true →
        ACTIVITY guidedDemo (VAR l') 0 + ACTIVITY guidedDemo (VAR l') 1
          ≤ ACTIVITY guidedDemo (VAR l) 0 + ACTIVITY guidedDemo (VAR l) 1) ∧
      selectLiteral guidedDemo = some (lit, { guidedDemo with nextClause := 1 }) ∧
      VAR lit = VAR l :=
  ⟨by decide, by decide, by decide, by decide,
    (fun i h1 h2 => by
        have h3 : i ≤ 2 := h2
        have h4 : i = 2 := by omega
        subst h4
        exact ⟨[-1, 3], by decide, by decide⟩), by decide,
    selectLiteral_best guidedDemo 1 [1, -2, 3] (by decide) (by decide)
      (fun i h1 h2 => by
        have h3 : i ≤ 2 := h2
        have h4 : i = 2 := by omega
        subst h4
        exact ⟨[-1, 3], by decide, by decide⟩)
      (by decide) (by decide) ⟨-2, by decide, by decide⟩ (by decide)⟩
/-- Claim C17.  With `nextClause` within `[-1, clauses.size() - 1]`, every
learned clause of the scan window having a literal set true, and `j` the least
index with `nextVar <= j < nVars` whose variable `varOrder[j]` is unassigned:
`selectLiteral` returns a literal of `varOrder[j]`, the one RSAT phase selection
gives, and sets `nextVar` to `j + 1`; `varOrder` and `varPosition` are as
before, the state changing in `nextClause` and `nextVar` only. -/
theorem selectLiteral_order (s : State κ) (j : Nat)
    (hlo : -1 ≤ s.nextClause) (hhi : s.nextClause < (s.clauses.length : Int))
    (hsat : ∀ (i : Int) (c : List Int),
      (if s.nextClause > 256 then s.nextClause - 256 else 0) ≤ i → i ≤ s.nextClause →
      s.clauses[i.toNat]? = some c → c.any (SET s) = true)
    (hj1 : s.nextVar ≤ j) (hj2 : j < s.nVars)
    (hfree : s.assigned (s.varOrder j) = false)
    (hleast : ∀ i, s.nextVar ≤ i → i < j → s.assigned (s.varOrder i) = true) :
    ∃ lit s1, selectLiteral s = some (lit, s1) ∧
      lit = rsatPhase s (s.varOrder j) ∧ VAR lit = s.varOrder j ∧
      s1.nextVar = j + 1 ∧ s1.varOrder = s.varOrder ∧ s1.varPosition = s.varPosition ∧
      s1 = { s with nextClause := s1.nextClause, nextVar := j + 1 } := by
  have hlast : (0 : Int) ≤ if s.nextClause > 256 then s.nextClause - 256 else 0 := by
    split_ifs <;> omega
  generalize hL : (if s.nextClause > 256 then s.nextClause - 256 else 0) = last
    at hsat hlast
  have hL2 : last ≤ s.nextClause + 1 := by
    rw [← hL]; split_ifs <;> omega
  have hscan := scanClauses_all_sat last (s.nextClause - last + 1).toNat s
    (fun m hm => by
      have hidx : (last + (m : Int)).toNat < s.clauses.length := by omega
      refine ⟨s.clauses[(last + (m : Int)).toNat], List.getElem?_eq_getElem hidx, ?_⟩
      exact hsat (last + (m : Int)) _ (by omega) (by omega)
        (List.getElem?_eq_getElem hidx))
  generalize hs1 : (if (s.nextClause - last + 1).toNat = 0 then s
    else { s with nextClause := last }) = s1 at hscan
  have hf : s1 = { s with nextClause := s1.nextClause } := by
    rw [← hs1]; split_ifs <;> rfl
  have hso : scanOrder s1 (s1.nVars - s1.nextVar) = some j := by
    have e1 : s1.nVars = s.nVars := by rw [hf]
    have e2 : s1.nextVar = s.nextVar := by rw [hf]
    have e3 : s1.assigned = s.assigned := by rw [hf]
    have e4 : s1.varOrder = s.varOrder := by rw [hf]
    apply scanOrder_first s1 j (by rw [e1]; exact hj2) (by rw [e3, e4]; exact hfree)
    · omega
    · rw [e1, e2]; omega
    · intro i h1 h2
      rw [e3, e4]
      exact hleast i (by rw [e1, e2] at h1; omega) h2
  have hvo : s1.varOrder = s.varOrder := by rw [hf]
  refine ⟨rsatPhase { s1 with nextVar := j + 1 } (s1.varOrder j),
    { s1 with nextVar := j + 1 }, ?_, ?_, ?_, rfl, hvo, by rw [hf], ?_⟩
  · simp only [selectLiteral, selectVar, hL, hscan, hso]
  · rw [hvo, hf]; rfl
  · rw [VAR_rsatPhase, hvo]
  · rw [hf]

/-- The scan of `orderDemo` finds its two learned clauses satisfied; the first
unassigned variable from the cursor on is `varOrder[1] = 2`. -/
theorem selectLiteral_order_witness :
    -1 ≤ orderDemo.nextClause ∧ orderDemo.nextClause < (orderDemo.clauses.length : Int) ∧
    (∀ (i : Int) (c : List Int),
      (if orderDemo.nextClause > 256 then orderDemo.nextClause - 256 else 0) ≤ i →
      i ≤ orderDemo.nextClause →
      orderDemo.clauses[i.toNat]? = some c → c.any (SET orderDemo) = true) ∧
    orderDemo.nextVar ≤ 1 ∧ 1 < orderDemo.nVars ∧
    orderDemo.assigned (orderDemo.varOrder 1) = false ∧
    (∀ i, orderDemo.nextVar ≤ i → i < 1 → orderDemo.assigned (orderDemo.varOrder i) = true) ∧
    (selectLiteral orderDemo).map (fun r => (r.1, r.2.nextClause, r.2.nextVar))
      = some (2, 0, 2) ∧
    ∃ lit s1, selectLiteral orderDemo = some (lit, s1) ∧
      lit = rsatPhase orderDemo (orderDemo.varOrder 1) ∧ VAR lit = orderDemo.varOrder 1 ∧
      s1.nextVar = 1 + 1 ∧ s1.varOrder = orderDemo.varOrder ∧
      s1.varPosition = orderDemo.varPosition ∧
      s1 = { orderDemo with nextClause := s1.nextClause, nextVar := 1 + 1 } :=
  have hsat : ∀ (i : Int) (c : List Int),
      (if orderDemo.nextClause > 256 then orderDemo.nextClause - 256 else 0) ≤ i →
      i ≤ orderDemo.nextClause →
      orderDemo.clauses[i.toNat]? = some c → c.any (SET orderDemo) = true := by
    intro i c h1 h2 hc
    have h3 : (0 : Int) ≤ i := h1
    have h4 : i ≤ 1 := h2
    have h5 : i = 0 ∨ i = 1 := by omega
    rcases h5 with rfl | rfl
    · have : c = [-1, 2] := by
        have e : orderDemo.clauses[(0 : Int).toNat]? = some [-1, 2] := by decide
        rw [e] at hc; exact (Option.some.inj hc).symm
      subst this; decide
    · have : c = [-1, 3] := by
        have e : orderDemo.clauses[(1 : Int).toNat]? = some [-1, 3] := by decide
        rw [e] at hc; exact (Option.some.inj hc).symm
      subst this; decide
  have hleast : ∀ i, orderDemo.nextVar ≤ i → i < 1 →
      orderDemo.assigned (orderDemo.varOrder i) = true := by
    intro i _ h2
    have : i = 0 := by omega
    subst this; decide
  ⟨by decide, by decide, hsat, by decide, by decide, by decide, hleast, by decide,
    selectLiteral_order orderDemo 1 (by decide) (by decide) hsat (by decide) (by decide)
      (by decide) hleast⟩

/-! ## When `selectLiteral` returns 0, and what it returns otherwise -/

theorem scanClauses_result (last : Int) :
    ∀ (n : Nat) (s : State κ) (r : Option Nat) (s1 : State κ),
      scanClauses s last n = some (r, s1) →
      (s1.nextClause = s.nextClause ∨
        (last ≤ s1.nextClause ∧ s1.nextClause < last + (n : Int))) ∧
      (∀ x, r = some x →
        last ≤ s1.nextClause ∧ s1.nextClause < last + (n : Int) ∧
        ∃ c, s.clauses[s1.nextClause.toNat]? = some c ∧ c.any (SET s) = false ∧
          x = bestVar s c) := by
  intro n
  induction n with
  | zero =>
    intro s r s1 h
    simp only [scanClauses, Option.some.injEq, Prod.mk.injEq] at h
    obtain ⟨rfl, rfl⟩ := h
    exact ⟨Or.inl rfl, fun x hx => by simp at hx⟩
  | succ n ih =>
    intro s r s1 h
    simp only [scanClauses] at h
    cases hc : s.clauses[(last + (n : Int)).toNat]? with
    | none => simp [hc] at h
    | some c =>
      simp only [hc] at h
      cases hsat : c.any (SET s) with
      | true =>
        simp only [hsat, if_true] at h
        obtain ⟨h1, h2⟩ := ih _ r s1 h
        refine ⟨Or.inr ?_, ?_⟩
        · rcases h1 with h1 | h1
          · rw [h1]; simp only []; push_cast; omega
          · push_cast; omega
        · intro x hx
          obtain ⟨a, b, c', hc', hs', hx'⟩ := h2 x hx
          exact ⟨a, by push_cast; omega, c', hc', hs', hx'⟩
      | false =>
        simp only [hsat, Bool.false_eq_true, if_false, Option.some.injEq,
          Prod.mk.injEq] at h
        obtain ⟨hr, hs⟩ := h
        subst hs
        refine ⟨Or.inr ⟨by simp only []; omega, by simp only []; push_cast; omega⟩, ?_⟩
        intro x hx
        rw [← hr] at hx
        simp only [Option.some.injEq] at hx
        exact ⟨by simp only []; omega, by simp only []; push_cast; omega, c, hc, hsat,
          hx.symm⟩

theorem scanOrder_some_spec (s : State κ) :
    ∀ n i, n ≤ s.nVars → scanOrder s n = some i →
      s.nVars - n ≤ i ∧ i < s.nVars ∧ s.assigned (s.varOrder i) = false ∧
      ∀ i', s.nVars - n ≤ i' → i' < i → s.assigned (s.varOrder i') = true := by
  intro n
  induction n with
  | zero => intro i _ h; simp [scanOrder] at h
  | succ n ih =>
    intro i hn h
    simp only [scanOrder] at h
    cases ha : s.assigned (s.varOrder (s.nVars - (n + 1))) with
    | false =>
      simp only [ha, Bool.not_false, if_true, Option.some.injEq] at h
      subst h
      exact ⟨le_refl _, by omega, ha, fun i' h1 h2 => by omega⟩
    | true =>
      simp only [ha, Bool.not_true, Bool.false_eq_true, if_false] at h
      obtain ⟨h1, h2, h3, h4⟩ := ih i (by omega) h
      refine ⟨by omega, h2, h3, ?_⟩
      intro i' hi1 hi2
      by_cases he : i' = s.nVars - (n + 1)
      · rw [he]; exact ha
      · exact h4 i' (by omega) hi2

/-- The three ways `selectVar` ends: in the clause scan, on the first clause of
the window without a literal set true; in the order scan, on the first
unassigned variable from `nextVar` on; or with nothing chosen, every variable
of the order from `nextVar` on being assigned. -/
theorem selectVar_cases (s : State κ) (r : Option Nat) (s1 : State κ)
    (h : selectVar s = some (r, s1)) :
    (s1.nextClause = s.nextClause ∨
      ((if s.nextClause > 256 then s.nextClause - 256 else 0) ≤ s1.nextClause ∧
        s1.nextClause ≤ s.nextClause)) ∧
    ((∃ x c, r = some x ∧
        (if s.nextClause > 256 then s.nextClause - 256 else 0) ≤ s1.nextClause ∧
        s1.nextClause ≤ s.nextClause ∧
        s.clauses[s1.nextClause.toNat]? = some c ∧ c.any (SET s) = false ∧
        x = bestVar s c ∧ s1.nextVar = s.nextVar) ∨
      (∃ i, r = some (s.varOrder i) ∧ s.nextVar ≤ i ∧ i < s.nVars ∧
        s.assigned (s.varOrder i) = false ∧
        (∀ i', s.nextVar ≤ i' → i' < i → s.assigned (s.varOrder i') = true) ∧
        s1.nextVar = i + 1) ∨
      (r = none ∧ s1.nextVar = s.nextVar ∧
        ∀ i, s.nextVar ≤ i → i < s.nVars → s.assigned (s.varOrder i) = true)) := by
  have hlast : (0 : Int) ≤ if s.nextClause > 256 then s.nextClause - 256 else 0 := by
    split_ifs <;> omega
  unfold selectVar at h
  simp only [] at h
  generalize hL : (if s.nextClause > 256 then s.nextClause - 256 else 0) = last at h hlast ⊢
  cases hscan : scanClauses s last (s.nextClause - last + 1).toNat with
  | none => simp [hscan] at h
  | some r2 =>
    obtain ⟨oy, s3⟩ := r2
    simp only [hscan] at h
    obtain ⟨hnc, hx⟩ := scanClauses_result last _ s oy s3 hscan
    have hf := scanClauses_frame _ _ _ _ _ hscan
    have hnc2 : s3.nextClause = s.nextClause ∨
        (last ≤ s3.nextClause ∧ s3.nextClause ≤ s.nextClause) := by
      rcases hnc with hnc | hnc
      · exact Or.inl hnc
      · exact Or.inr ⟨hnc.1, by omega⟩
    cases oy with
    | some y =>
      simp only [Option.some.injEq, Prod.mk.injEq] at h
      obtain ⟨rfl, rfl⟩ := h
      obtain ⟨a, b, c, hc, hs, hy⟩ := hx y rfl
      exact ⟨hnc2, Or.inl ⟨y, c, rfl, a, by omega, hc, hs, hy, by rw [hf]⟩⟩
    | none =>
      simp only [] at h
      have e1 : s3.nVars = s.nVars := by rw [hf]
      have e2 : s3.nextVar = s.nextVar := by rw [hf]
      have e3 : s3.assigned = s.assigned := by rw [hf]
      have e4 : s3.varOrder = s.varOrder := by rw [hf]
      cases hso : scanOrder s3 (s3.nVars - s3.nextVar) with
      | none =>
        simp only [hso, Option.some.injEq, Prod.mk.injEq] at h
        obtain ⟨rfl, rfl⟩ := h
        refine ⟨hnc2, Or.inr (Or.inr ⟨rfl, e2, ?_⟩)⟩
        intro i h1 h2
        have := scanOrder_none s3 _ hso i (by rw [e1, e2]; omega) (by rw [e1]; exact h2)
        rwa [e3, e4] at this
      | some i =>
        simp only [hso, Option.some.injEq, Prod.mk.injEq] at h
        obtain ⟨rfl, rfl⟩ := h
        obtain ⟨k1, k2, k3, k4⟩ := scanOrder_some_spec s3 _ i (by omega) hso
        rw [e1, e2] at k1
        rw [e1] at k2
        rw [e3, e4] at k3
        refine ⟨hnc2, Or.inr (Or.inl ⟨i, by rw [e4], by omega, k2, k3, ?_, rfl⟩)⟩
        intro i' h1 h2
        have := k4 i' (by rw [e1, e2]; omega) h2
        rwa [e3, e4] at this
/-- Claim C18, as stated, fails.  In `soloDemo` the heuristic invariant holds
(`nextVar == 0`) and the only learned clause of the window has a free literal,
yet `selectLiteral` returns 0 while the ordered variable 1 is free: the score
`2^31` of the free literal is negative as an `int`, so no variable is picked. -/
theorem selectLiteral_zero_counterexample :
    (∀ i, i < soloDemo.nextVar → soloDemo.assigned (soloDemo.varOrder i) = true) ∧
    soloDemo.clauses = [[1]] ∧ soloDemo.nextClause = 0 ∧ FREE soloDemo 1 = true ∧
    (selectLiteral soloDemo).map Prod.fst = some 0 ∧
    (0 < soloDemo.nVars ∧ soloDemo.assigned (soloDemo.varOrder 0) = false) :=
  ⟨fun i h => absurd h (Nat.not_lt_zero i), rfl, rfl, by decide, by decide,
    by decide, by decide⟩

/-- Claim C18, amended.  Under the heuristic invariant (every `varOrder[i]` with
`i < nextVar`, `i < nVars`, is assigned), every learned clause of the scan window
having a literal set true or a free literal, the literals of the learned clauses
and the entries of `varOrder` below `nVars` being nonzero, and the score of every
free literal of a learned clause being below `2^31`: if `selectLiteral` returns
0 then every variable of `varOrder[0..nVars)` is assigned.  Without the
hypothesis on the window it can return 0 with an ordered variable free: in
`stuckDemo` the invariant holds, the clause under the cursor has its only
literal false, variable `varOrder[1]` is free and 0 is returned. -/
theorem selectLiteral_zero_complete (s s1 : State κ)
    (hret : selectLiteral s = some (0, s1))
    (hinv : ∀ i, i < s.nextVar → i < s.nVars → s.assigned (s.varOrder i) = true)
    (hwin : ∀ (i : Int) (c : List Int),
      (if s.nextClause > 256 then s.nextClause - 256 else 0) ≤ i → i ≤ s.nextClause →
      s.clauses[i.toNat]? = some c →
      c.any (SET s) = true ∨ ∃ l ∈ c, FREE s l = true)
    (hnz : ∀ c ∈ s.clauses, ∀ l ∈ c, l ≠ 0)
    (hord : ∀ i, i < s.nVars → s.varOrder i ≠ 0)
    (hsmall : ∀ c ∈ s.clauses, ∀ l ∈ c, FREE s l = true →
      ACTIVITY s (VAR l) 0 + ACTIVITY s (VAR l) 1 < 2 ^ 31) :
    (∀ i, i < s.nVars → s.assigned (s.varOrder i) = true) ∧
    ((∀ i, i < stuckDemo.nextVar → i < stuckDemo.nVars →
        stuckDemo.assigned (stuckDemo.varOrder i) = true) ∧
      stuckDemo.clauses[stuckDemo.nextClause.toNat]? = some [1] ∧
      RESOLVED stuckDemo 1 = true ∧
      (1 < stuckDemo.nVars ∧ stuckDemo.assigned (stuckDemo.varOrder 1) = false) ∧
      (selectLiteral stuckDemo).map Prod.fst = some 0) := by
  refine ⟨?_, ?_, by decide, by decide, by decide, by decide⟩
  · unfold selectLiteral at hret
    cases hsv : selectVar s with
    | none => simp [hsv] at hret
    | some r =>
      obtain ⟨ox, s2⟩ := r
      obtain ⟨_, hcases⟩ := selectVar_cases s ox s2 hsv
      rcases hcases with ⟨x, c, rfl, h1, h2, hc, hs, hx, _⟩ | ⟨i, rfl, h1, h2, h3, _, _⟩ |
        ⟨rfl, _, hall⟩
      · exfalso
        simp only [hsv, Option.some.injEq, Prod.mk.injEq] at hret
        have hx0 := rsatPhase_eq_zero _ _ hret.1
        have hmem : c ∈ s.clauses := List.getElem?_mem hc
        rcases hwin _ c h1 h2 hc with hw | hw
        · rw [hw] at hs; simp at hs
        · obtain ⟨pre, l, post, e, _, hb, _⟩ := bestVar_max s c hw (hsmall c hmem)
          have hl : l ∈ c := by rw [e]; simp
          have hne := hnz c hmem l hl
          rw [hx, hb] at hx0
          exact hne (Int.natAbs_eq_zero.1 hx0)
      · exfalso
        simp only [hsv, Option.some.injEq, Prod.mk.injEq] at hret
        exact hord i h2 (rsatPhase_eq_zero _ _ hret.1)
      · intro i hi
        by_cases hlt : i < s.nextVar
        · exact hinv i hlt hi
        · exact hall i (by omega) hi
  · intro i h1 h2
    have h3 : i < 1 := h1
    have : i = 0 := by omega
    subst this; decide

/-- A complete assignment with a satisfied learned clause: `selectLiteral`
returns 0 and both ordered variables are assigned. -/
theorem selectLiteral_zero_complete_witness :
    selectLiteral completeDemo = some (0, completeDemo) ∧
    ((∀ i, i < completeDemo.nVars → completeDemo.assigned (completeDemo.varOrder i) = true) ∧
    ((∀ i, i < stuckDemo.nextVar → i < stuckDemo.nVars →
        stuckDemo.assigned (stuckDemo.varOrder i) = true) ∧
      stuckDemo.clauses[stuckDemo.nextClause.toNat]? = some [1] ∧
      RESOLVED stuckDemo 1 = true ∧
      (1 < stuckDemo.nVars ∧ stuckDemo.assigned (stuckDemo.varOrder 1) = false) ∧
      (selectLiteral stuckDemo).map Prod.fst = some 0)) :=
  ⟨rfl, selectLiteral_zero_complete completeDemo completeDemo rfl
    (fun i h => absurd h (Nat.not_lt_zero i))
    (fun i c h1 h2 hc => by
      have h3 : (0 : Int) ≤ i := h1
      have h4 : i ≤ 0 := h2
      have h5 : i = 0 := by omega
      subst h5
      have e : completeDemo.clauses[(0 : Int).toNat]? = some [-1, 2] := by decide
      rw [e] at hc
      have : c = [-1, 2] := (Option.some.inj hc).symm
      subst this
      left; decide)
    (by decide)
    (fun i _ => Nat.succ_ne_zero i)
    (by decide)⟩
/-- Claim C19.  With `nextClause` within `[-1, clauses.size() - 1]`, the
literals of the learned clauses and the entries of `varOrder` below `nVars` being
variables of `[1, V]`: `selectLiteral` returns; a nonzero literal it returns has
its absolute value in `[1, V]` and names a variable that is unassigned, also in
the state in which `decide` is then called; and `nextClause` afterwards is
within `[-1, clauses.size() - 1]` and not above its value before. -/
theorem selectLiteral_safe (s : State κ)
    (hlo : -1 ≤ s.nextClause) (hhi : s.nextClause < (s.clauses.length : Int))
    (hlits : ∀ c ∈ s.clauses, ∀ l ∈ c, l ≠ 0 ∧ VAR l ≤ s.vc)
    (hord : ∀ i, i < s.nVars → 1 ≤ s.varOrder i ∧ s.varOrder i ≤ s.vc) :
    ∃ lit s1, selectLiteral s = some (lit, s1) ∧
      (lit ≠ 0 → 1 ≤ VAR lit ∧ VAR lit ≤ s.vc ∧ s.assigned (VAR lit) = false ∧
        FREE s1 lit = true) ∧
      -1 ≤ s1.nextClause ∧ s1.nextClause < (s1.clauses.length : Int) ∧
      s1.nextClause ≤ s.nextClause := by
  have hlast : (0 : Int) ≤ if s.nextClause > 256 then s.nextClause - 256 else 0 := by
    split_ifs <;> omega
  have hlen : (if s.nextClause > 256 then s.nextClause - 256 else 0)
      + (((s.nextClause - (if s.nextClause > 256 then s.nextClause - 256 else 0) + 1).toNat
          : Nat) : Int) ≤ (s.clauses.length : Int) := by
    split_ifs <;> omega
  obtain ⟨r0, s0, hscan, _, _⟩ := scanClauses_total _ hlast _ s hlen
  have hex : ∃ r s1, selectVar s = some (r, s1) := by
    unfold selectVar
    simp only [hscan]
    cases r0 with
    | some x => exact ⟨_, _, rfl⟩
    | none =>
      simp only []
      cases scanOrder s0 (s0.nVars - s0.nextVar) with
      | none => exact ⟨_, _, rfl⟩
      | some i => exact ⟨_, _, rfl⟩
  obtain ⟨r, s1, hsv⟩ := hex
  have hf := selectVar_frame s r s1 hsv
  have hasg : s1.assigned = s.assigned := by rw [hf]
  have hcl : s1.clauses = s.clauses := by rw [hf]
  obtain ⟨hnc, hcases⟩ := selectVar_cases s r s1 hsv
  have hnc2 : -1 ≤ s1.nextClause ∧ s1.nextClause < (s1.clauses.length : Int) ∧
      s1.nextClause ≤ s.nextClause := by
    rw [hcl]
    rcases hnc with hnc | hnc
    · rw [hnc]; exact ⟨hlo, hhi, le_refl _⟩
    · exact ⟨by omega, by omega, hnc.2⟩
  have key : ∀ x : Nat, (x ≠ 0 → 1 ≤ x ∧ x ≤ s.vc ∧ s.assigned x = false) →
      (rsatPhase s1 x ≠ 0 → 1 ≤ VAR (rsatPhase s1 x) ∧ VAR (rsatPhase s1 x) ≤ s.vc ∧
        s.assigned (VAR (rsatPhase s1 x)) = false ∧ FREE s1 (rsatPhase s1 x) = true) := by
    intro x hx hne
    have hx0 : x ≠ 0 := by
      intro h0; rw [h0, rsatPhase_zero] at hne; exact hne rfl
    obtain ⟨a, b, c⟩ := hx hx0
    rw [VAR_rsatPhase]
    refine ⟨a, b, c, ?_⟩
    simp [FREE, VAR_rsatPhase, hasg, c]
  rcases hcases with ⟨x, c, rfl, _, _, hc, _, hx, _⟩ | ⟨i, rfl, _, h2, h3, _, _⟩ |
    ⟨rfl, _, _⟩
  · refine ⟨rsatPhase s1 x, s1, by simp only [selectLiteral, hsv], ?_, hnc2⟩
    apply key
    intro hx0
    have hmem : c ∈ s.clauses := List.getElem?_mem hc
    rcases bestVar_zero_or_free s c with h0 | ⟨l, hl, hfree, hb⟩
    · rw [hx] at hx0; exact absurd h0 hx0
    · obtain ⟨hne, hle⟩ := hlits c hmem l hl
      rw [hx, hb]
      refine ⟨?_, hle, by simpa [FREE] using hfree⟩
      have := Int.natAbs_pos.2 hne
      unfold VAR; omega
  · refine ⟨rsatPhase s1 (s.varOrder i), s1, by simp only [selectLiteral, hsv], ?_, hnc2⟩
    apply key
    intro _
    exact ⟨(hord i h2).1, (hord i h2).2, h3⟩
  · refine ⟨0, s1, by simp only [selectLiteral, hsv], fun h => absurd rfl h, hnc2⟩

/-- The call on `guidedDemo` returns `¬2`, a literal of a free variable of
`[1, 3]`, and moves the clause cursor from 2 down to 1. -/
theorem selectLiteral_safe_witness :
    -1 ≤ guidedDemo.nextClause ∧ guidedDemo.nextClause < (guidedDemo.clauses.length : Int) ∧
    (∀ c ∈ guidedDemo.clauses, ∀ l ∈ c, l ≠ 0 ∧ VAR l ≤ guidedDemo.vc) ∧
    (∀ i, i < guidedDemo.nVars →
      1 ≤ guidedDemo.varOrder i ∧ guidedDemo.varOrder i ≤ guidedDemo.vc) ∧
    ∃ lit s1, selectLiteral guidedDemo = some (lit, s1) ∧
      (lit ≠ 0 → 1 ≤ VAR lit ∧ VAR lit ≤ guidedDemo.vc ∧
        guidedDemo.assigned (VAR lit) = false ∧ FREE s1 lit = true) ∧
      -1 ≤ s1.nextClause ∧ s1.nextClause < (s1.clauses.length : Int) ∧
      s1.nextClause ≤ guidedDemo.nextClause :=
  have hord : ∀ i, i < guidedDemo.nVars →
      1 ≤ guidedDemo.varOrder i ∧ guidedDemo.varOrder i ≤ guidedDemo.vc := by
    intro i hi
    have h3 : i < 3 := hi
    interval_cases i <;> decide
  ⟨by decide, by decide, by decide, hord,
    selectLiteral_safe guidedDemo (by decide) (by decide) (by decide) hord⟩

/-! ## Score decay -/

theorem scoreDecay_fold :
    ∀ (n a : Nat) (act : Nat → Nat) (k : Nat),
      ((List.range' a n).foldl scoreDecayStep act) k =
        if 2 * a ≤ k ∧ k < 2 * (a + n) then act k / 2 else act k := by
  intro n
  induction n with
  | zero =>
    intro a act k
    have : ¬ (2 * a ≤ k ∧ k < 2 * (a + 0)) := by omega
    rw [if_neg this]
    rfl
  | succ n ih =>
    intro a act k
    rw [List.range'_succ, List.foldl_cons, ih]
    unfold scoreDecayStep
    by_cases h0 : k = a * 2 + 0
    · subst h0
      have c1 : ¬ (2 * (a + 1) ≤ a * 2 + 0 ∧ a * 2 + 0 < 2 * (a + 1 + n)) := by omega
      have c2 : 2 * a ≤ a * 2 + 0 ∧ a * 2 + 0 < 2 * (a + (n + 1)) := by omega
      rw [if_neg c1, if_pos c2, Function.update_noteq (by omega), Function.update_same]
    · by_cases h1 : k = a * 2 + 1
      · subst h1
        have c1 : ¬ (2 * (a + 1) ≤ a * 2 + 1 ∧ a * 2 + 1 < 2 * (a + 1 + n)) := by omega
        have c2 : 2 * a ≤ a * 2 + 1 ∧ a * 2 + 1 < 2 * (a + (n + 1)) := by omega
        rw [if_neg c1, if_pos c2, Function.update_same, Function.update_noteq (by omega)]
      · rw [Function.update_noteq h1, Function.update_noteq h0]
        by_cases c1 : 2 * (a + 1) ≤ k ∧ k < 2 * (a + 1 + n)
        · have c2 : 2 * a ≤ k ∧ k < 2 * (a + (n + 1)) := by omega
          rw [if_pos c1, if_pos c2]
        · have c2 : ¬ (2 * a ≤ k ∧ k < 2 * (a + (n + 1))) := by omega
          rw [if_neg c1, if_neg c2]

theorem scoreDecay_activity (s : State κ) (k : Nat) :
    (scoreDecay s).activity k =
      if 2 ≤ k ∧ k < 2 * (1 + s.vc) then s.activity k / 2 else s.activity k := by
  unfold scoreDecay
  simp only []
  rw [scoreDecay_fold]

/-- Claim C20, as stated, fails.  With counters `(1, 1)` for variable 1 and
`(2^31, 2^31)` for variable 2, `SCORE(1) = 2` and the 32-bit sum `SCORE(2)` is 0,
so `SCORE(1) >= SCORE(2) + 2`; after the decay `SCORE(1) = 0` and
`SCORE(2) = 2^31`. -/
theorem scoreDecay_rank_counterexample :
    SCORE wrapScoreDemo 1 ≥ SCORE wrapScoreDemo 2 + 2 ∧
    SCORE (scoreDecay wrapScoreDemo) 1 = 0 ∧
    SCORE (scoreDecay wrapScoreDemo) 2 = 2147483648 ∧
    ¬ SCORE (scoreDecay wrapScoreDemo) 1 ≥ SCORE (scoreDecay wrapScoreDemo) 2 := by
  refine ⟨by decide, by decide, by decide, by decide⟩

/-- Claim C20, amended.  `scoreDecay` replaces each of the two counters of
every variable of `[1, V]` by its floor half and writes no other entry of
`activity`.  For two variables `a` and `b` of `[1, V]` whose sums of counters are
below `2^32` (so that `SCORE` is the sum), `SCORE(a) >= SCORE(b) + 2` before the
decay gives `SCORE(a) >= SCORE(b)` after it.  Variables of equal score can
become strictly ordered: counters `(6, 8)` and `(7, 7)`, of score 14 both, give
scores 7 and 6. -/
theorem scoreDecay_spec (s : State κ) :
    (∀ v, 1 ≤ v → v ≤ s.vc →
      ACTIVITY (scoreDecay s) v 0 = ACTIVITY s v 0 / 2 ∧
      ACTIVITY (scoreDecay s) v 1 = ACTIVITY s v 1 / 2) ∧
    (∀ k, (k < 2 ∨ 2 * s.vc + 2 ≤ k) → (scoreDecay s).activity k = s.activity k) ∧
    (∀ a b, 1 ≤ a → a ≤ s.vc → 1 ≤ b → b ≤ s.vc →
      ACTIVITY s a 0 + ACTIVITY s a 1 < 2 ^ 32 →
      ACTIVITY s b 0 + ACTIVITY s b 1 < 2 ^ 32 →
      SCORE s a ≥ SCORE s b + 2 → SCORE (scoreDecay s) a ≥ SCORE (scoreDecay s) b) ∧
    (SCORE decayDemo 1 = 14 ∧ SCORE decayDemo 2 = 14 ∧
      SCORE (scoreDecay decayDemo) 1 = 7 ∧ SCORE (scoreDecay decayDemo) 2 = 6) := by
  have hact : ∀ v p, 1 ≤ v → v ≤ s.vc → p < 2 →
      ACTIVITY (scoreDecay s) v p = ACTIVITY s v p / 2 := by
    intro v p h1 h2 hp
    unfold ACTIVITY
    rw [scoreDecay_activity, if_pos (by omega)]
  refine ⟨fun v h1 h2 => ⟨hact v 0 h1 h2 (by omega), hact v 1 h1 h2 (by omega)⟩, ?_, ?_,
    by decide, by decide, by decide, by decide⟩
  · intro k hk
    rw [scoreDecay_activity, if_neg (by omega)]
  · intro a b ha1 ha2 hb1 hb2 hsa hsb hge
    unfold SCORE at hge ⊢
    rw [hact a 0 ha1 ha2 (by omega), hact a 1 ha1 ha2 (by omega),
      hact b 0 hb1 hb2 (by omega), hact b 1 hb1 hb2 (by omega)]
    rw [Nat.mod_eq_of_lt hsa, Nat.mod_eq_of_lt hsb] at hge
    rw [Nat.mod_eq_of_lt (by omega), Nat.mod_eq_of_lt (by omega)]
    omega

end Tinisat
